import Mathlib

/-!
Verification of the ASN.1 time codecs in `x509-certificate/src/asn1time.rs`.

The module decodes and encodes the ASN.1 `UTCTime` and `GeneralizedTime`
content bytes.  We embed the decoders and encoders shallowly:

* content bytes are `List Nat` (byte values);
* `std::str::from_utf8` is `utf8Decode` (strict UTF-8, yielding code points);
* `i32::from_str` / `u32::from_str` are `i32FromStr` / `u32FromStr`;
* `chrono::NaiveDateTime::parse_from_str` with the two concrete format
  strings `"%Y%m%d%H%M%S"` and `"%Y%m%d%H%M%S.%9f"` is `parseNoFrac` /
  `parseFrac`: numeric items trim leading whitespace, accept a leading
  sign for `%Y` (consuming an unbounded digit run) and otherwise consume a
  greedy run of one up to `width` ASCII digits; `%9f` consumes exactly nine
  digits; the whole input must be consumed; field resolution checks the
  civil calendar, and a parsed second of 60 is stored as the chrono leap
  second (second 59 with the nanosecond field raised by 10^9);
* `chrono::Utc.ymd_opt(..).and_hms_opt(..)` (the `UtcTime` path) is the
  `dateValid` / time-of-day check with no leap-second acceptance;
* decoders return `DR`, distinguishing success, `Malformed`, and an
  out-of-bounds slice access (which Rust would turn into a panic);
* the `ToString`/`PrimitiveContent` encoders are `UtcTime.to_string`,
  `GeneralizedTime.to_string` and `Time.encode_ref`, with Rust's `{:0w}`
  zero-padded formatting modelled by `fmtNat` / `fmtInt`.
-/

/-- ASCII digit byte / code point (`b'0'..=b'9'`). -/
def digitB (b : Nat) : Prop := 48 ≤ b ∧ b ≤ 57

instance (b : Nat) : Decidable (digitB b) := by
  unfold digitB; infer_instance

/-- Unicode `White_Space` code points, as used by Rust's
`char::is_whitespace` and `str::trim_start` (chrono trims these before
every numeric item). -/
def isWsCp (c : Nat) : Prop :=
  c = 9 ∨ c = 10 ∨ c = 11 ∨ c = 12 ∨ c = 13 ∨ c = 32 ∨ c = 133 ∨ c = 160 ∨
  c = 5760 ∨ (8192 ≤ c ∧ c ≤ 8202) ∨ c = 8232 ∨ c = 8233 ∨ c = 8239 ∨
  c = 8287 ∨ c = 12288

instance (c : Nat) : Decidable (isWsCp c) := by
  unfold isWsCp; infer_instance

/-- Is `b` a UTF-8 continuation byte (`0x80..=0xBF`). -/
def utf8Cont (b : Nat) : Prop := 128 ≤ b ∧ b ≤ 191

instance (b : Nat) : Decidable (utf8Cont b) := by
  unfold utf8Cont; infer_instance

/-- A valid two-byte UTF-8 sequence lead/continuation pair. -/
def twoByte (b c : Nat) : Prop := (194 ≤ b ∧ b ≤ 223) ∧ utf8Cont c

instance (b c : Nat) : Decidable (twoByte b c) := by
  unfold twoByte; infer_instance

/-- A valid three-byte UTF-8 sequence (excluding overlong forms and
surrogates, as Rust does). -/
def threeByte (b c d : Nat) : Prop :=
  ((b = 224 ∧ 160 ≤ c ∧ c ≤ 191) ∨ (225 ≤ b ∧ b ≤ 236 ∧ utf8Cont c) ∨
    (b = 237 ∧ 128 ≤ c ∧ c ≤ 159) ∨ (238 ≤ b ∧ b ≤ 239 ∧ utf8Cont c)) ∧
  utf8Cont d

instance (b c d : Nat) : Decidable (threeByte b c d) := by
  unfold threeByte; infer_instance

/-- A valid four-byte UTF-8 sequence (code points up to 0x10FFFF). -/
def fourByte (b c d e : Nat) : Prop :=
  ((b = 240 ∧ 144 ≤ c ∧ c ≤ 191) ∨ (241 ≤ b ∧ b ≤ 243 ∧ utf8Cont c) ∨
    (b = 244 ∧ 128 ≤ c ∧ c ≤ 143)) ∧
  utf8Cont d ∧ utf8Cont e

instance (b c d e : Nat) : Decidable (fourByte b c d e) := by
  unfold fourByte; infer_instance

/-- Code point of a two-byte UTF-8 sequence. -/
def cp2 (b c : Nat) : Nat := (b - 192) * 64 + (c - 128)

/-- Code point of a three-byte UTF-8 sequence. -/
def cp3 (b c d : Nat) : Nat := (b - 224) * 4096 + (c - 128) * 64 + (d - 128)

/-- Code point of a four-byte UTF-8 sequence. -/
def cp4 (b c d e : Nat) : Nat :=
  (b - 240) * 262144 + (c - 128) * 4096 + (d - 128) * 64 + (e - 128)

/-- Strict UTF-8 decoding (`std::str::from_utf8`): `none` on any invalid
sequence (overlong forms, surrogates, out-of-range lead or continuation
bytes), otherwise the list of decoded code points. -/
def utf8Decode : List Nat → Option (List Nat)
  | [] => some []
  | b :: rest =>
    if b < 128 then Option.map (fun t => b :: t) (utf8Decode rest)
    else
      match rest with
      | [] => none
      | c :: rest2 =>
        if twoByte b c then Option.map (fun t => cp2 b c :: t) (utf8Decode rest2)
        else
          match rest2 with
          | [] => none
          | d :: rest3 =>
            if threeByte b c d then
              Option.map (fun t => cp3 b c d :: t) (utf8Decode rest3)
            else
              match rest3 with
              | [] => none
              | e :: rest4 =>
                if fourByte b c d e then
                  Option.map (fun t => cp4 b c d e :: t) (utf8Decode rest4)
                else none

/-- Value of a list of ASCII digit code points, most significant first
(the accumulator loop shared by Rust's integer `FromStr` and chrono's
`scan::number`). -/
def digitsVal (l : List Nat) : Nat :=
  l.foldl (fun a c => a * 10 + (c - 48)) 0

/-- All elements are ASCII digits. -/
def allDigits (l : List Nat) : Prop := ∀ c ∈ l, digitB c

instance (l : List Nat) : Decidable (allDigits l) := by
  unfold allDigits; infer_instance

/-- Rust `i32::from_str`: an optional leading `+`/`-` sign, then a
non-empty run of ASCII digits making up the whole string; fails on
anything else or on i32 overflow. -/
def i32FromStr (cps : List Nat) : Option Int :=
  match cps with
  | [] => none
  | c :: rest =>
    if c = 43 then
      if rest ≠ [] ∧ allDigits rest ∧ digitsVal rest ≤ 2147483647 then
        some ((digitsVal rest : Int))
      else none
    else if c = 45 then
      if rest ≠ [] ∧ allDigits rest ∧ digitsVal rest ≤ 2147483648 then
        some (-(digitsVal rest : Int))
      else none
    else
      if allDigits (c :: rest) ∧ digitsVal (c :: rest) ≤ 2147483647 then
        some ((digitsVal (c :: rest) : Int))
      else none

/-- Rust `u32::from_str`: an optional leading `+` sign (`-` is rejected),
then a non-empty run of ASCII digits making up the whole string; fails on
anything else or on u32 overflow. -/
def u32FromStr (cps : List Nat) : Option Nat :=
  match cps with
  | [] => none
  | c :: rest =>
    if c = 43 then
      if rest ≠ [] ∧ allDigits rest ∧ digitsVal rest ≤ 4294967295 then
        some (digitsVal rest)
      else none
    else
      if allDigits (c :: rest) ∧ digitsVal (c :: rest) ≤ 4294967295 then
        some (digitsVal (c :: rest))
      else none

/-- The date-time value stored inside `UtcTime` / `GeneralizedTime`
(`chrono::DateTime<chrono::Utc>`): proleptic-Gregorian calendar fields
plus the nanosecond field (which chrono keeps, and which exceeds 10^9 for
a leap second). -/
structure DT where
  year : Int
  month : Nat
  day : Nat
  hour : Nat
  minute : Nat
  second : Nat
  nano : Nat
deriving DecidableEq

/-- Result of a decoder: success, `bcder`'s `Malformed` error, or an
out-of-bounds slice index (a Rust panic). -/
inductive DR (α : Type) where
  | ok : α → DR α
  | malformed : DR α
  | oob : DR α
deriving DecidableEq

/-- Monadic sequencing on `DR`, propagating failures. -/
def DR.bind {α β : Type} : DR α → (α → DR β) → DR β
  | DR.ok a, f => f a
  | DR.malformed, _ => DR.malformed
  | DR.oob, _ => DR.oob

/-- Rust slice `data[i..j]`: defined only when `i ≤ j ≤ data.len()`
(otherwise Rust panics). -/
def byteSlice (data : List Nat) (i j : Nat) : Option (List Nat) :=
  if i ≤ j ∧ j ≤ data.length then some ((data.take j).drop i) else none

/-- Proleptic-Gregorian leap year, as chrono computes it. -/
def isLeapYear (y : Int) : Prop := (y % 4 = 0 ∧ y % 100 ≠ 0) ∨ y % 400 = 0

instance (y : Int) : Decidable (isLeapYear y) := by
  unfold isLeapYear; infer_instance

/-- Number of days of month `m` of year `y` (0 for an invalid month). -/
def daysInMonth (y : Int) (m : Nat) : Nat :=
  if m = 1 then 31
  else if m = 2 then (if isLeapYear y then 29 else 28)
  else if m = 3 then 31
  else if m = 4 then 30
  else if m = 5 then 31
  else if m = 6 then 30
  else if m = 7 then 31
  else if m = 8 then 31
  else if m = 9 then 30
  else if m = 10 then 31
  else if m = 11 then 30
  else if m = 12 then 31
  else 0

/-- `chrono::NaiveDate::from_ymd_opt` succeeds: the year is within
chrono's representable range and `(m, d)` is a valid civil date of `y`. -/
def dateValid (y : Int) (m d : Nat) : Prop :=
  -262144 ≤ y ∧ y ≤ 262143 ∧ 1 ≤ m ∧ m ≤ 12 ∧ 1 ≤ d ∧ d ≤ daysInMonth y m

instance (y : Int) (m d : Nat) : Decidable (dateValid y m d) := by
  unfold dateValid; infer_instance

/-- `str::trim_start` as chrono applies it before each numeric item. -/
def trimLeft (s : List Nat) : List Nat :=
  s.dropWhile (fun c => decide (isWsCp c))

/-- Greedy run of at most `w` leading ASCII digits
(chrono `scan::number`'s consumption). Returns the run and the rest. -/
def takeDigits : Nat → List Nat → List Nat × List Nat
  | 0, s => ([], s)
  | _ + 1, [] => ([], [])
  | w + 1, c :: rest =>
    if digitB c then
      let p := takeDigits w rest
      (c :: p.1, p.2)
    else ([], c :: rest)

/-- chrono `scan::number(s, 1, w)`: greedily consume up to `w` leading
ASCII digits, requiring at least one; the accumulated value must fit in
an `i64`. -/
def scanNumber (w : Nat) (s : List Nat) : Option (Nat × List Nat) :=
  let p := takeDigits w s
  if p.1 = [] then none
  else if digitsVal p.1 ≤ 9223372036854775807 then some (digitsVal p.1, p.2)
  else none

/-- chrono `scan::number(s, 1, usize::MAX)`: the unbounded digit run used
after an explicit sign. -/
def scanNumberAll (s : List Nat) : Option (Nat × List Nat) :=
  let ds := s.takeWhile (fun c => decide (digitB c))
  let r := s.dropWhile (fun c => decide (digitB c))
  if ds = [] then none
  else if digitsVal ds ≤ 9223372036854775807 then some (digitsVal ds, r)
  else none

/-- chrono parsing of a signed numeric item (`%Y`): trim leading
whitespace; a leading `-` or `+` switches to an unbounded digit run,
otherwise greedily take up to `w` digits. -/
def parseNumericSigned (w : Nat) (s : List Nat) : Option (Int × List Nat) :=
  match trimLeft s with
  | [] => none
  | c :: rest =>
    if c = 45 then Option.map (fun p => (-(p.1 : Int), p.2)) (scanNumberAll rest)
    else if c = 43 then Option.map (fun p => ((p.1 : Int), p.2)) (scanNumberAll rest)
    else Option.map (fun p => ((p.1 : Int), p.2)) (scanNumber w (c :: rest))

/-- chrono parsing of an unsigned numeric item (`%m %d %H %M %S`): trim
leading whitespace, then a greedy run of one up to `w` digits. -/
def parseNumericU (w : Nat) (s : List Nat) : Option (Nat × List Nat) :=
  scanNumber w (trimLeft s)

/-- chrono `scan::nanosecond_fixed(s, 9)` (the `%9f` item): exactly nine
ASCII digits, read as a nanosecond count. -/
def scanNano9 (s : List Nat) : Option (Nat × List Nat) :=
  if 9 ≤ s.length ∧ allDigits (s.take 9) then
    some (digitsVal (s.take 9), s.drop 9)
  else none

/-- `chrono::format::Parsed::to_naive_datetime_with_offset(0)` for our
field set: resolve `(y, mo, d)` against the civil calendar, map a parsed
second of 60 to chrono's leap-second representation (second 59, extra
10^9 nanoseconds), and require a valid time-of-day. -/
def parsedToDT (y : Int) (mo d h mi s nano : Nat) : Option DT :=
  if dateValid y mo d then
    if (if s = 60 then 59 else s) < 60 ∧ h < 24 ∧ mi < 60 ∧
        (if s = 60 then nano + 1000000000 else nano) < 2000000000 then
      some ⟨y, mo, d, h, mi, if s = 60 then 59 else s,
            if s = 60 then nano + 1000000000 else nano⟩
    else none
  else none

/-- `NaiveDateTime::parse_from_str(date_str, "%Y%m%d%H%M%S")`: the six
numeric items in sequence, the whole input consumed, then field
resolution; `%Y` additionally passes chrono's `set_year` i32 check. -/
def parseNoFrac (s : List Nat) : Option DT :=
  match parseNumericSigned 4 s with
  | none => none
  | some (y, s1) =>
    if y < -2147483648 ∨ 2147483647 < y then none
    else
      match parseNumericU 2 s1 with
      | none => none
      | some (mo, s2) =>
        match parseNumericU 2 s2 with
        | none => none
        | some (d, s3) =>
          match parseNumericU 2 s3 with
          | none => none
          | some (h, s4) =>
            match parseNumericU 2 s4 with
            | none => none
            | some (mi, s5) =>
              match parseNumericU 2 s5 with
              | none => none
              | some (sec, s6) =>
                if s6 = [] then parsedToDT y mo d h mi sec 0 else none

/-- `NaiveDateTime::parse_from_str(padded, "%Y%m%d%H%M%S.%9f")`: as
`parseNoFrac` but, after the seconds item, a literal `.` followed by
exactly nine fraction digits, and then the whole input must be consumed. -/
def parseFrac (s : List Nat) : Option DT :=
  match parseNumericSigned 4 s with
  | none => none
  | some (y, s1) =>
    if y < -2147483648 ∨ 2147483647 < y then none
    else
      match parseNumericU 2 s1 with
      | none => none
      | some (mo, s2) =>
        match parseNumericU 2 s2 with
        | none => none
        | some (d, s3) =>
          match parseNumericU 2 s3 with
          | none => none
          | some (h, s4) =>
            match parseNumericU 2 s4 with
            | none => none
            | some (mi, s5) =>
              match parseNumericU 2 s5 with
              | none => none
              | some (sec, s6) =>
                match s6 with
                | [] => none
                | c :: s7 =>
                  if c = 46 then
                    match scanNano9 s7 with
                    | none => none
                    | some (nano, s8) =>
                      if s8 = [] then parsedToDT y mo d h mi sec nano else none
                  else none

/-- Rust `format!("{:0<24}", date_str)`: left-align and right-pad with
`'0'` up to 24 characters. -/
def padTo24 (s : List Nat) : List Nat :=
  s ++ List.replicate (24 - s.length) 48

/-- `GeneralizedTime::from_primitive` (asn1time.rs lines 71-107): require
at least 15 content bytes ending in `Z`, UTF-8-decode everything before
the `Z`, and parse it with `"%Y%m%d%H%M%S"` when the content is exactly
15 bytes, otherwise with `"%Y%m%d%H%M%S.%9f"` after right-padding the
string with `'0'` to 24 characters. -/
def GeneralizedTime.from_primitive (data : List Nat) : DR DT :=
  let dataLen := data.length
  if dataLen < 15 then DR.malformed
  else
    match data.get? (dataLen - 1) with
    | none => DR.oob
    | some lastByte =>
      if lastByte ≠ 90 then DR.malformed
      else
        match byteSlice data 0 (dataLen - 1) with
        | none => DR.oob
        | some body =>
          match utf8Decode body with
          | none => DR.malformed
          | some dateStr =>
            match (if dataLen = 15 then parseNoFrac dateStr
                   else parseFrac (padTo24 dateStr)) with
            | none => DR.malformed
            | some dt => DR.ok dt

/-- Fuelled helper for `natDigits`: structural recursion on the fuel so
that the kernel can evaluate it. -/
def natDigitsF : Nat → Nat → List Nat
  | 0, n => [n]
  | f + 1, n => if n < 10 then [n] else natDigitsF f (n / 10) ++ [n % 10]

/-- The encoders need Rust's decimal rendering of an unsigned value:
decimal digits (each 0..9), most significant first. -/
def natDigits (n : Nat) : List Nat := natDigitsF n n

/-- Rust `{:0w}` formatting of an unsigned integer: zero-pad the decimal
digits on the left to width `w`, rendered as ASCII bytes. -/
def fmtNat (w : Nat) (n : Nat) : List Nat :=
  List.replicate (w - (natDigits n).length) 48 ++ (natDigits n).map (fun d => d + 48)

/-- Rust `{:0w}` formatting of a signed integer: a `-` sign for negative
values followed by the zero-padded digits (zeros sit between the sign and
the digits, and the sign counts toward the width). -/
def fmtInt (w : Nat) (x : Int) : List Nat :=
  if x < 0 then
    45 :: List.replicate (w - 1 - (natDigits x.natAbs).length) 48 ++
      (natDigits x.natAbs).map (fun d => d + 48)
  else fmtNat w x.natAbs

/-- `impl ToString for GeneralizedTime` (lines 109-121): the fixed
`{:04}{:02}{:02}{:02}{:02}{:02}Z` rendering of the stored fields, as the
bytes `PrimitiveContent::write_encoded` emits. -/
def GeneralizedTime.to_string (v : DT) : List Nat :=
  fmtInt 4 v.year ++ fmtNat 2 v.month ++ fmtNat 2 v.day ++ fmtNat 2 v.hour ++
    fmtNat 2 v.minute ++ fmtNat 2 v.second ++ [90]

/-- The `UtcTime` century rule (line 158): `if year >= 50 { year + 1900 }
else { year + 2000 }`. -/
def utcCentury (yy : Int) : Int := if 50 ≤ yy then yy + 1900 else yy + 2000

/-- One two-byte numeric field of `UtcTime::from_primitive`:
`u32::from_str(std::str::from_utf8(&data[i..i + 2])?)`, with a slice
panic modelled as `DR.oob` and both error paths mapped to `Malformed`. -/
def utcField (data : List Nat) (i : Nat) : DR Nat :=
  match byteSlice data i (i + 2) with
  | none => DR.oob
  | some sl =>
    match utf8Decode sl with
    | none => DR.malformed
    | some cps =>
      match u32FromStr cps with
      | none => DR.malformed
      | some v => DR.ok v

/-- The year field of `UtcTime::from_primitive` (lines 155-156):
`i32::from_str(std::str::from_utf8(&data[0..2])?)`, before the century
rule is applied. -/
def utcRawYear (data : List Nat) : DR Int :=
  match byteSlice data 0 2 with
  | none => DR.oob
  | some sl =>
    match utf8Decode sl with
    | none => DR.malformed
    | some cps =>
      match i32FromStr cps with
      | none => DR.malformed
      | some v => DR.ok v

/-- `UtcTime::from_primitive` (lines 148-184): exactly 13 content bytes;
six two-byte integer fields (`i32` year with the century rule, then five
`u32` fields); the final byte must be `Z`; then
`Utc.ymd_opt(..).and_hms_opt(..)` must resolve, i.e. a valid civil date
and a time-of-day with hour < 24, minute < 60, second < 60. -/
def UtcTime.from_primitive (data : List Nat) : DR DT :=
  if data.length ≠ 13 then DR.malformed
  else
    DR.bind (utcRawYear data) (fun yy =>
    DR.bind (utcField data 2) (fun mo =>
    DR.bind (utcField data 4) (fun d =>
    DR.bind (utcField data 6) (fun h =>
    DR.bind (utcField data 8) (fun mi =>
    DR.bind (utcField data 10) (fun s =>
    (match data.get? 12 with
     | none => DR.oob
     | some z =>
       if z ≠ 90 then DR.malformed
       else
         if dateValid (utcCentury yy) mo d ∧ h < 24 ∧ mi < 60 ∧ s < 60 then
           DR.ok ⟨utcCentury yy, mo, d, h, mi, s, 0⟩
         else DR.malformed)))))))

/-- `impl ToString for UtcTime` (lines 187-199): the
`{:02}{:02}{:02}{:02}{:02}{:02}Z` rendering with the year reduced modulo
100 by Rust's truncating `%` on `i32`. -/
def UtcTime.to_string (v : DT) : List Nat :=
  fmtInt 2 (Int.tmod v.year 100) ++ fmtNat 2 v.month ++ fmtNat 2 v.day ++
    fmtNat 2 v.hour ++ fmtNat 2 v.minute ++ fmtNat 2 v.second ++ [90]

/-- The ASN.1 tag handed to `Time::take_from`'s closure: the two
universal time tags, or anything else. -/
inductive ATag where
  | utcTime : ATag
  | generalizedTime : ATag
  | other : ATag
deriving DecidableEq

/-- The `Time` enum (lines 17-21). -/
inductive Time where
  | UtcTime : DT → Time
  | GeneralTime : DT → Time
deriving DecidableEq

/-- `Time::take_from` (lines 24-30): dispatch on the primitive's tag —
`Tag::UTC_TIME` runs the `UtcTime` decoder, `Tag::GENERALIZED_TIME` the
`GeneralizedTime` decoder, and any other tag is `Malformed`. -/
def Time.take_from (tag : ATag) (data : List Nat) : DR Time :=
  match tag with
  | ATag.utcTime =>
    DR.bind (UtcTime.from_primitive data) (fun v => DR.ok (Time.UtcTime v))
  | ATag.generalizedTime =>
    DR.bind (GeneralizedTime.from_primitive data) (fun v => DR.ok (Time.GeneralTime v))
  | ATag.other => DR.malformed

/-- `Time::encode_ref` (lines 32-37) together with the two
`PrimitiveContent` impls: the stored variant selects the encoder, whose
`TAG` constant and `write_encoded` bytes are emitted. -/
def Time.encode_ref : Time → ATag × List Nat
  | Time.UtcTime v => (ATag.utcTime, UtcTime.to_string v)
  | Time.GeneralTime v => (ATag.generalizedTime, GeneralizedTime.to_string v)

/-- ASCII bytes of a string literal, for concrete test vectors. -/
def bytes (s : String) : List Nat :=
  s.toList.map (fun c => c.toNat)

/-! ### Basic facts about the embedded primitives -/

/-- Two-digit field value `10*(a-48) + (b-48)` of ASCII digits `a b`. -/
def tv (a b : Nat) : Nat := 10 * (a - 48) + (b - 48)

/-- Four-digit field value of ASCII digits `a b c d`. -/
def fv (a b c d : Nat) : Nat :=
  1000 * (a - 48) + 100 * (b - 48) + 10 * (c - 48) + (d - 48)

theorem digitB_not_ws {c : Nat} (h : digitB c) : ¬ isWsCp c := by
  rcases h with ⟨h1, h2⟩
  unfold isWsCp
  omega

theorem digitB_lt128 {c : Nat} (h : digitB c) : c < 128 := by
  rcases h with ⟨h1, h2⟩; omega

theorem utf8Decode_ascii : ∀ l : List Nat, (∀ b ∈ l, b < 128) → utf8Decode l = some l := by
  intro l
  induction l with
  | nil => intro _; rfl
  | cons b rest ih =>
    intro h
    have hb : b < 128 := h b (List.mem_cons_self b rest)
    have hr := ih (fun x hx => h x (List.mem_cons_of_mem b hx))
    have hu : utf8Decode (b :: rest) = Option.map (fun t => b :: t) (utf8Decode rest) := by
      conv_lhs => rw [utf8Decode.eq_def]
      simp only [if_pos hb]
    rw [hu, hr, Option.map_some']

theorem digitsVal_two {a b : Nat} : digitsVal [a, b] = tv a b := by
  simp [digitsVal, tv]
  omega

theorem digitsVal_four {a b c d : Nat} : digitsVal [a, b, c, d] = fv a b c d := by
  simp [digitsVal, fv]
  omega

theorem tv_lt {a b : Nat} (ha : digitB a) (hb : digitB b) : tv a b < 100 := by
  rcases ha with ⟨a1, a2⟩; rcases hb with ⟨b1, b2⟩
  unfold tv; omega

theorem fv_lt {a b c d : Nat} (ha : digitB a) (hb : digitB b) (hc : digitB c)
    (hd : digitB d) : fv a b c d < 10000 := by
  rcases ha with ⟨_, _⟩; rcases hb with ⟨_, _⟩; rcases hc with ⟨_, _⟩
  rcases hd with ⟨_, _⟩
  unfold fv; omega

theorem trimLeft_cons_nonws {c : Nat} (l : List Nat) (h : ¬ isWsCp c) :
    trimLeft (c :: l) = c :: l := by
  simp [trimLeft, List.dropWhile, decide_eq_false h]

theorem takeDigits_zero (s : List Nat) : takeDigits 0 s = ([], s) := rfl

theorem takeDigits_nil (w : Nat) : takeDigits w [] = ([], []) := by
  cases w <;> rfl

theorem takeDigits_cons_digit {c : Nat} (w : Nat) (l : List Nat) (h : digitB c) :
    takeDigits (w + 1) (c :: l) = (c :: (takeDigits w l).1, (takeDigits w l).2) := by
  simp [takeDigits, h]

theorem takeDigits_cons_nondigit {c : Nat} (w : Nat) (l : List Nat) (h : ¬ digitB c) :
    takeDigits (w + 1) (c :: l) = ([], c :: l) := by
  simp [takeDigits, h]

theorem takeDigits_decomp :
    ∀ (w : Nat) (s : List Nat),
      (takeDigits w s).1 ++ (takeDigits w s).2 = s ∧ allDigits (takeDigits w s).1 := by
  intro w
  induction w with
  | zero =>
    intro s
    exact ⟨rfl, fun c hc => absurd hc (List.not_mem_nil c)⟩
  | succ w ih =>
    intro s
    cases s with
    | nil =>
      rw [takeDigits_nil]
      exact ⟨rfl, fun c hc => absurd hc (List.not_mem_nil c)⟩
    | cons c l =>
      by_cases hc : digitB c
      · rw [takeDigits_cons_digit w l hc]
        refine ⟨by simpa using (ih l).1, ?_⟩
        intro x hx
        rcases List.mem_cons.1 hx with h | h
        · exact h ▸ hc
        · exact (ih l).2 x h
      · rw [takeDigits_cons_nondigit w l hc]
        exact ⟨rfl, fun x hx => absurd hx (List.not_mem_nil x)⟩

/-! ### Reduction lemmas for the chrono numeric items on digit inputs -/

theorem allDigits_two {a b : Nat} (ha : digitB a) (hb : digitB b) :
    allDigits [a, b] := by
  intro c hc
  rcases List.mem_cons.1 hc with h | h
  · exact h ▸ ha
  · rcases List.mem_cons.1 h with h2 | h2
    · exact h2 ▸ hb
    · exact absurd h2 (List.not_mem_nil c)

theorem scanNumber_two {a b : Nat} (r : List Nat) (ha : digitB a) (hb : digitB b) :
    scanNumber 2 (a :: b :: r) = some (tv a b, r) := by
  have h1 : takeDigits 2 (a :: b :: r) = ([a, b], r) := by
    rw [takeDigits_cons_digit 1 (b :: r) ha, takeDigits_cons_digit 0 r hb,
      takeDigits_zero]
  have hlt := tv_lt ha hb
  simp [scanNumber, h1, digitsVal_two]
  omega

theorem scanNumber_four {a b c d : Nat} (r : List Nat) (ha : digitB a)
    (hb : digitB b) (hc : digitB c) (hd : digitB d) :
    scanNumber 4 (a :: b :: c :: d :: r) = some (fv a b c d, r) := by
  have h1 : takeDigits 4 (a :: b :: c :: d :: r) = ([a, b, c, d], r) := by
    rw [takeDigits_cons_digit 3 _ ha, takeDigits_cons_digit 2 _ hb,
      takeDigits_cons_digit 1 _ hc, takeDigits_cons_digit 0 r hd, takeDigits_zero]
  have hlt := fv_lt ha hb hc hd
  simp [scanNumber, h1, digitsVal_four]
  omega

theorem parseNumericU_two {a b : Nat} (r : List Nat) (ha : digitB a) (hb : digitB b) :
    parseNumericU 2 (a :: b :: r) = some (tv a b, r) := by
  rw [parseNumericU, trimLeft_cons_nonws _ (digitB_not_ws ha), scanNumber_two r ha hb]

theorem parseNumericSigned_four {a b c d : Nat} (r : List Nat) (ha : digitB a)
    (hb : digitB b) (hc : digitB c) (hd : digitB d) :
    parseNumericSigned 4 (a :: b :: c :: d :: r) = some ((fv a b c d : Int), r) := by
  have h45 : a ≠ 45 := by rcases ha with ⟨h1, _⟩; omega
  have h43 : a ≠ 43 := by rcases ha with ⟨h1, _⟩; omega
  rw [parseNumericSigned, trimLeft_cons_nonws _ (digitB_not_ws ha)]
  simp only [h45, h43, if_false, scanNumber_four r ha hb hc hd, Option.map_some']

theorem u32FromStr_two {a b : Nat} (ha : digitB a) (hb : digitB b) :
    u32FromStr [a, b] = some (tv a b) := by
  have h43 : a ≠ 43 := by rcases ha with ⟨h1, _⟩; omega
  have hlt := tv_lt ha hb
  rw [u32FromStr]
  simp only [h43, if_false]
  rw [if_pos]
  · rw [digitsVal_two]
  · exact ⟨allDigits_two ha hb, by rw [digitsVal_two]; omega⟩

theorem i32FromStr_two {a b : Nat} (ha : digitB a) (hb : digitB b) :
    i32FromStr [a, b] = some ((tv a b : Int)) := by
  have h43 : a ≠ 43 := by rcases ha with ⟨h1, _⟩; omega
  have h45 : a ≠ 45 := by rcases ha with ⟨h1, _⟩; omega
  have hlt := tv_lt ha hb
  rw [i32FromStr]
  simp only [h43, h45, if_false]
  rw [if_pos]
  · rw [digitsVal_two]
  · exact ⟨allDigits_two ha hb, by rw [digitsVal_two]; omega⟩

/-! ### Decimal formatting lemmas -/

theorem natDigitsF_congr :
    ∀ (n f g : Nat), n ≤ f → n ≤ g → natDigitsF f n = natDigitsF g n := by
  intro n
  induction n using Nat.strong_induction_on with
  | _ n ih =>
    intro f g hf hg
    by_cases h10 : n < 10
    · cases f <;> cases g <;> simp [natDigitsF, h10]
    · obtain ⟨f2, rfl⟩ : ∃ f2, f = f2 + 1 := ⟨f - 1, by omega⟩
      obtain ⟨g2, rfl⟩ : ∃ g2, g = g2 + 1 := ⟨g - 1, by omega⟩
      simp only [natDigitsF, if_neg h10]
      have hlt : n / 10 < n := by omega
      rw [ih (n / 10) hlt f2 g2 (by omega) (by omega)]

theorem natDigits_small {n : Nat} (h : n < 10) : natDigits n = [n] := by
  cases n with
  | zero => rfl
  | succ m => simp [natDigits, natDigitsF, h]

theorem natDigits_step {n : Nat} (h : 10 ≤ n) :
    natDigits n = natDigits (n / 10) ++ [n % 10] := by
  match n, h with
  | m + 1, h =>
    show natDigitsF (m + 1) (m + 1) = _
    simp only [natDigitsF, if_neg (by omega : ¬ m + 1 < 10)]
    rw [natDigitsF_congr ((m + 1) / 10) m ((m + 1) / 10) (by omega) (by omega)]
    rfl

theorem natDigits_len2 {n : Nat} (h1 : 10 ≤ n) (h2 : n < 100) :
    natDigits n = [n / 10, n % 10] := by
  rw [natDigits_step h1, natDigits_small (by omega : n / 10 < 10)]
  rfl

theorem natDigits_len3 {n : Nat} (h1 : 100 ≤ n) (h2 : n < 1000) :
    natDigits n = [n / 100, n / 10 % 10, n % 10] := by
  rw [natDigits_step (by omega : 10 ≤ n),
    natDigits_len2 (by omega : 10 ≤ n / 10) (by omega : n / 10 < 100)]
  have e1 : n / 10 / 10 = n / 100 := by omega
  rw [e1]
  rfl

theorem natDigits_len4 {n : Nat} (h1 : 1000 ≤ n) (h2 : n < 10000) :
    natDigits n = [n / 1000, n / 100 % 10, n / 10 % 10, n % 10] := by
  rw [natDigits_step (by omega : 10 ≤ n),
    natDigits_len3 (by omega : 100 ≤ n / 10) (by omega : n / 10 < 1000)]
  have e1 : n / 10 / 100 = n / 1000 := by omega
  have e2 : n / 10 / 10 % 10 = n / 100 % 10 := by omega
  rw [e1, e2]
  rfl

theorem fmtNat_two {p q : Nat} (hp : p < 10) (hq : q < 10) :
    fmtNat 2 (10 * p + q) = [p + 48, q + 48] := by
  by_cases h0 : p = 0
  · subst h0
    rw [fmtNat, natDigits_small (by omega : 10 * 0 + q < 10)]
    simp
  · rw [fmtNat, natDigits_len2 (by omega) (by omega)]
    have e1 : (10 * p + q) / 10 = p := by omega
    have e2 : (10 * p + q) % 10 = q := by omega
    rw [e1, e2]
    rfl

theorem fmtNat_four {p q r s : Nat} (hp : p < 10) (hq : q < 10) (hr : r < 10)
    (hs : s < 10) :
    fmtNat 4 (1000 * p + 100 * q + 10 * r + s) =
      [p + 48, q + 48, r + 48, s + 48] := by
  set n := 1000 * p + 100 * q + 10 * r + s with hn
  by_cases h3 : 1000 ≤ n
  · have hp0 : 1 ≤ p := by omega
    rw [fmtNat, natDigits_len4 h3 (by omega)]
    have e1 : n / 1000 = p := by omega
    have e2 : n / 100 % 10 = q := by omega
    have e3 : n / 10 % 10 = r := by omega
    have e4 : n % 10 = s := by omega
    rw [e1, e2, e3, e4]
    rfl
  · have hp0 : p = 0 := by omega
    by_cases h2 : 100 ≤ n
    · have hq0 : 1 ≤ q := by omega
      rw [fmtNat, natDigits_len3 h2 (by omega)]
      have e2 : n / 100 = q := by omega
      have e3 : n / 10 % 10 = r := by omega
      have e4 : n % 10 = s := by omega
      rw [e2, e3, e4]
      subst hp0
      rfl
    · by_cases h1 : 10 ≤ n
      · have hq0 : q = 0 := by omega
        have hr0 : 1 ≤ r := by omega
        rw [fmtNat, natDigits_len2 h1 (by omega)]
        have e3 : n / 10 = r := by omega
        have e4 : n % 10 = s := by omega
        rw [e3, e4]
        subst hp0; subst hq0
        rfl
      · have hq0 : q = 0 := by omega
        have hr0 : r = 0 := by omega
        have hs0 : n = s := by omega
        rw [fmtNat, natDigits_small (by omega : n < 10), hs0]
        subst hp0; subst hq0; subst hr0
        rfl

theorem fmtInt_ofNat (w n : Nat) : fmtInt w ((n : Int)) = fmtNat w n := by
  rw [fmtInt, if_neg (by omega : ¬ (n : Int) < 0)]
  simp [Int.natAbs_ofNat]

theorem tmod_ofNat (m n : Nat) :
    Int.tmod ((m : Int)) ((n : Int)) = ((m % n : Nat) : Int) := rfl

theorem utcCentury_ofNat (yy : Nat) :
    utcCentury ((yy : Int)) =
      ((if 50 ≤ yy then yy + 1900 else yy + 2000 : Nat) : Int) := by
  unfold utcCentury
  split_ifs <;> omega

theorem utcCentury_tmod {yy : Nat} (h : yy < 100) :
    Int.tmod (utcCentury ((yy : Int))) 100 = ((yy : Int)) := by
  rw [utcCentury_ofNat]
  show Int.tmod _ ((100 : Nat) : Int) = _
  rw [tmod_ofNat]
  split_ifs <;> (congr 1; omega)

/-! ### Core reduction of the decoders on digit-grammar inputs -/

theorem ascii_two {a b : Nat} (ha : digitB a) (hb : digitB b) :
    ∀ x ∈ [a, b], x < 128 := by
  intro x hx
  rcases List.mem_cons.1 hx with h | h
  · exact h ▸ digitB_lt128 ha
  · rcases List.mem_cons.1 h with h2 | h2
    · exact h2 ▸ digitB_lt128 hb
    · exact absurd h2 (List.not_mem_nil x)

theorem utcField_digits (data : List Nat) (i : Nat) {a b : Nat}
    (hs : byteSlice data i (i + 2) = some [a, b]) (ha : digitB a) (hb : digitB b) :
    utcField data i = DR.ok (tv a b) := by
  simp only [utcField, hs, utf8Decode_ascii [a, b] (ascii_two ha hb),
    u32FromStr_two ha hb]

theorem utc_core (y1 y0 a1 a0 b1 b0 c1 c0 d1 d0 e1 e0 : Nat)
    (hy1 : digitB y1) (hy0 : digitB y0) (ha1 : digitB a1) (ha0 : digitB a0)
    (hb1 : digitB b1) (hb0 : digitB b0) (hc1 : digitB c1) (hc0 : digitB c0)
    (hd1 : digitB d1) (hd0 : digitB d0) (he1 : digitB e1) (he0 : digitB e0) :
    UtcTime.from_primitive [y1, y0, a1, a0, b1, b0, c1, c0, d1, d0, e1, e0, 90] =
      (if dateValid (utcCentury ((tv y1 y0 : Int))) (tv a1 a0) (tv b1 b0) ∧
          tv c1 c0 < 24 ∧ tv d1 d0 < 60 ∧ tv e1 e0 < 60 then
        DR.ok ⟨utcCentury ((tv y1 y0 : Int)), tv a1 a0, tv b1 b0, tv c1 c0,
          tv d1 d0, tv e1 e0, 0⟩
      else DR.malformed) := by
  have hs0 : byteSlice [y1, y0, a1, a0, b1, b0, c1, c0, d1, d0, e1, e0, 90] 0 2 =
      some [y1, y0] := by simp [byteSlice]
  have hs2 : byteSlice [y1, y0, a1, a0, b1, b0, c1, c0, d1, d0, e1, e0, 90] 2 (2 + 2) =
      some [a1, a0] := by simp [byteSlice]
  have hs4 : byteSlice [y1, y0, a1, a0, b1, b0, c1, c0, d1, d0, e1, e0, 90] 4 (4 + 2) =
      some [b1, b0] := by simp [byteSlice]
  have hs6 : byteSlice [y1, y0, a1, a0, b1, b0, c1, c0, d1, d0, e1, e0, 90] 6 (6 + 2) =
      some [c1, c0] := by simp [byteSlice]
  have hs8 : byteSlice [y1, y0, a1, a0, b1, b0, c1, c0, d1, d0, e1, e0, 90] 8 (8 + 2) =
      some [d1, d0] := by simp [byteSlice]
  have hs10 : byteSlice [y1, y0, a1, a0, b1, b0, c1, c0, d1, d0, e1, e0, 90] 10 (10 + 2) =
      some [e1, e0] := by simp [byteSlice]
  have hyear : utcRawYear [y1, y0, a1, a0, b1, b0, c1, c0, d1, d0, e1, e0, 90] =
      DR.ok ((tv y1 y0 : Int)) := by
    simp only [utcRawYear, hs0, utf8Decode_ascii [y1, y0] (ascii_two hy1 hy0),
      i32FromStr_two hy1 hy0]
  rw [UtcTime.from_primitive, if_neg (by simp)]
  simp only [hyear, utcField_digits _ 2 hs2 ha1 ha0, utcField_digits _ 4 hs4 hb1 hb0,
    utcField_digits _ 6 hs6 hc1 hc0, utcField_digits _ 8 hs8 hd1 hd0,
    utcField_digits _ 10 hs10 he1 he0, DR.bind]
  have hg : ([y1, y0, a1, a0, b1, b0, c1, c0, d1, d0, e1, e0, 90] : List Nat).get? 12 =
      some 90 := rfl
  simp only [hg]
  simp

theorem scanNano9_exact (l : List Nat) (h9 : l.length = 9) (hd : allDigits l) :
    scanNano9 l = some (digitsVal l, []) := by
  rw [scanNano9, if_pos]
  · rw [← h9, List.take_length, List.drop_length]
  · constructor
    · omega
    · rw [← h9, List.take_length]
      exact hd

theorem parsedToDT_no60 (y : Int) (mo d h mi s nano : Nat) (hs : s ≠ 60) :
    parsedToDT y mo d h mi s nano =
      (if dateValid y mo d ∧ s < 60 ∧ h < 24 ∧ mi < 60 ∧ nano < 2000000000 then
        some ⟨y, mo, d, h, mi, s, nano⟩
      else none) := by
  simp only [parsedToDT, if_neg hs]
  by_cases hd : dateValid y mo d
  · simp only [hd, if_true, true_and]
  · simp [hd]

theorem parseNoFrac_digits (p1 p2 p3 p4 q1 q2 r1 r2 s1 s2 t1 t2 u1 u2 : Nat)
    (hp1 : digitB p1) (hp2 : digitB p2) (hp3 : digitB p3) (hp4 : digitB p4)
    (hq1 : digitB q1) (hq2 : digitB q2) (hr1 : digitB r1) (hr2 : digitB r2)
    (hs1 : digitB s1) (hs2 : digitB s2) (ht1 : digitB t1) (ht2 : digitB t2)
    (hu1 : digitB u1) (hu2 : digitB u2) :
    parseNoFrac [p1, p2, p3, p4, q1, q2, r1, r2, s1, s2, t1, t2, u1, u2] =
      parsedToDT ((fv p1 p2 p3 p4 : Int)) (tv q1 q2) (tv r1 r2) (tv s1 s2)
        (tv t1 t2) (tv u1 u2) 0 := by
  have hy : ¬ ((fv p1 p2 p3 p4 : Int) < -2147483648 ∨
      2147483647 < (fv p1 p2 p3 p4 : Int)) := by
    have := fv_lt hp1 hp2 hp3 hp4
    omega
  simp only [parseNoFrac, parseNumericSigned_four _ hp1 hp2 hp3 hp4,
    if_neg hy, parseNumericU_two _ hq1 hq2, parseNumericU_two _ hr1 hr2,
    parseNumericU_two _ hs1 hs2, parseNumericU_two _ ht1 ht2,
    parseNumericU_two _ hu1 hu2, if_pos rfl, if_true]

theorem parseFrac_digits (p1 p2 p3 p4 q1 q2 r1 r2 s1 s2 t1 t2 u1 u2 : Nat)
    (fracRest : List Nat)
    (hp1 : digitB p1) (hp2 : digitB p2) (hp3 : digitB p3) (hp4 : digitB p4)
    (hq1 : digitB q1) (hq2 : digitB q2) (hr1 : digitB r1) (hr2 : digitB r2)
    (hs1 : digitB s1) (hs2 : digitB s2) (ht1 : digitB t1) (ht2 : digitB t2)
    (hu1 : digitB u1) (hu2 : digitB u2)
    (h9 : fracRest.length = 9) (hfd : allDigits fracRest) :
    parseFrac (p1 :: p2 :: p3 :: p4 :: q1 :: q2 :: r1 :: r2 :: s1 :: s2 :: t1 ::
        t2 :: u1 :: u2 :: 46 :: fracRest) =
      parsedToDT ((fv p1 p2 p3 p4 : Int)) (tv q1 q2) (tv r1 r2) (tv s1 s2)
        (tv t1 t2) (tv u1 u2) (digitsVal fracRest) := by
  have hy : ¬ ((fv p1 p2 p3 p4 : Int) < -2147483648 ∨
      2147483647 < (fv p1 p2 p3 p4 : Int)) := by
    have := fv_lt hp1 hp2 hp3 hp4
    omega
  simp only [parseFrac, parseNumericSigned_four _ hp1 hp2 hp3 hp4,
    if_neg hy, parseNumericU_two _ hq1 hq2, parseNumericU_two _ hr1 hr2,
    parseNumericU_two _ hs1 hs2, parseNumericU_two _ ht1 ht2,
    parseNumericU_two _ hu1 hu2, scanNano9_exact fracRest h9 hfd, if_pos rfl,
    if_true]

theorem gt_decode_append (body : List Nat) (h : 14 ≤ body.length) :
    GeneralizedTime.from_primitive (body ++ [90]) =
      (match utf8Decode body with
      | none => DR.malformed
      | some ds =>
        match (if body.length + 1 = 15 then parseNoFrac ds
               else parseFrac (padTo24 ds)) with
        | none => DR.malformed
        | some dt => DR.ok dt) := by
  have hlen : (body ++ [90]).length = body.length + 1 := by simp
  have hget : (body ++ [90]).get? body.length = some 90 := by
    rw [List.get?_concat_length]
  have hslice : byteSlice (body ++ [90]) 0 body.length = some body := by
    rw [byteSlice, if_pos]
    · rw [List.take_left, List.drop_zero]
    · constructor
      · omega
      · rw [hlen]; omega
  rw [GeneralizedTime.from_primitive]
  simp only [hlen, Nat.add_sub_cancel]
  rw [if_neg (by omega : ¬ body.length + 1 < 15)]
  simp only [hget, hslice]
  rw [if_neg (by simp : ¬ (90 : Nat) ≠ 90)]

/-! ### Helpers for inverting the decoders and sizing the encoders -/

theorem DR.bind_eq_ok {α β : Type} {x : DR α} {f : α → DR β} {b : β}
    (h : DR.bind x f = DR.ok b) : ∃ a, x = DR.ok a ∧ f a = DR.ok b := by
  cases x with
  | ok a => exact ⟨a, rfl, h⟩
  | malformed => exact DR.noConfusion h
  | oob => exact DR.noConfusion h

theorem fmtNat_tv {a b : Nat} (ha : digitB a) (hb : digitB b) :
    fmtNat 2 (tv a b) = [a, b] := by
  unfold tv
  rcases ha with ⟨ha1, ha2⟩
  rcases hb with ⟨hb1, hb2⟩
  rw [fmtNat_two (by omega) (by omega)]
  have e1 : a - 48 + 48 = a := by omega
  have e2 : b - 48 + 48 = b := by omega
  rw [e1, e2]

theorem fmtNat_fv {a b c d : Nat} (ha : digitB a) (hb : digitB b) (hc : digitB c)
    (hd : digitB d) : fmtNat 4 (fv a b c d) = [a, b, c, d] := by
  unfold fv
  rcases ha with ⟨ha1, ha2⟩
  rcases hb with ⟨hb1, hb2⟩
  rcases hc with ⟨hc1, hc2⟩
  rcases hd with ⟨hd1, hd2⟩
  rw [fmtNat_four (by omega) (by omega) (by omega) (by omega)]
  have e1 : a - 48 + 48 = a := by omega
  have e2 : b - 48 + 48 = b := by omega
  have e3 : c - 48 + 48 = c := by omega
  have e4 : d - 48 + 48 = d := by omega
  rw [e1, e2, e3, e4]

theorem natDigits_length_le : ∀ (k n : Nat), n < 10 ^ (k + 1) →
    (natDigits n).length ≤ k + 1 := by
  intro k
  induction k with
  | zero =>
    intro n h
    rw [natDigits_small (by simpa using h)]
    simp
  | succ k ih =>
    intro n h
    by_cases h10 : n < 10
    · rw [natDigits_small h10]; simp
    · rw [natDigits_step (by omega)]
      have hd : n / 10 < 10 ^ (k + 1) := by
        rw [Nat.div_lt_iff_lt_mul (by omega : 0 < 10)]
        calc n < 10 ^ (k + 1 + 1) := h
        _ = 10 ^ (k + 1) * 10 := by rw [pow_succ]
      have := ih (n / 10) hd
      simp [List.length_append]
      omega

theorem natDigits_length_pos (n : Nat) : 1 ≤ (natDigits n).length := by
  by_cases h : n < 10
  · rw [natDigits_small h]; simp
  · rw [natDigits_step (by omega)]; simp

theorem fmtNat_length {w n : Nat} (hw : 1 ≤ w) (h : n < 10 ^ w) :
    (fmtNat w n).length = w := by
  have hw2 : w - 1 + 1 = w := by omega
  have h1 : (natDigits n).length ≤ w := by
    have h3 := natDigits_length_le (w - 1) n (hw2 ▸ h)
    omega
  have h2 := natDigits_length_pos n
  rw [fmtNat, List.length_append, List.length_replicate, List.length_map]
  omega

/-- The invariant of a `chrono::DateTime<chrono::Utc>` value: a valid civil
date and time-of-day, with the nanosecond field below 2*10^9 (values of at
least 10^9 encode a leap second). -/
def DTValid (v : DT) : Prop :=
  dateValid v.year v.month v.day ∧ v.hour < 24 ∧ v.minute < 60 ∧
    v.second < 60 ∧ v.nano < 2000000000

instance (v : DT) : Decidable (DTValid v) := by
  unfold DTValid; infer_instance

set_option maxHeartbeats 1000000 in
theorem daysInMonth_le (y : Int) (m : Nat) : daysInMonth y m ≤ 31 := by
  unfold daysInMonth
  split_ifs <;> omega

theorem fmtNat_length2 {n : Nat} (h : n < 100) : (fmtNat 2 n).length = 2 :=
  fmtNat_length (by omega) (by
    have h2 : (10 : Nat) ^ 2 = 100 := by norm_num
    omega)

theorem fmtNat_length4 {n : Nat} (h : n < 10000) : (fmtNat 4 n).length = 4 :=
  fmtNat_length (by omega) (by
    have h2 : (10 : Nat) ^ 4 = 10000 := by norm_num
    omega)

/-! ### The claims -/

/-- Claim C1: for every 13-byte UtcTime content of twelve ASCII digits
followed by `Z` whose fields form a calendar-valid date and time-of-day,
decode succeeds and re-encoding the decoded value reproduces the input
bytes exactly; likewise for every 15-byte GeneralizedTime content (no
fractional component) with calendar-valid fields. -/
theorem claim1_roundtrip :
    (∀ y1 y0 a1 a0 b1 b0 c1 c0 d1 d0 e1 e0 : Nat,
      digitB y1 → digitB y0 → digitB a1 → digitB a0 → digitB b1 → digitB b0 →
      digitB c1 → digitB c0 → digitB d1 → digitB d0 → digitB e1 → digitB e0 →
      dateValid (utcCentury ((tv y1 y0 : Int))) (tv a1 a0) (tv b1 b0) →
      tv c1 c0 < 24 → tv d1 d0 < 60 → tv e1 e0 < 60 →
      ∃ v, UtcTime.from_primitive
          [y1, y0, a1, a0, b1, b0, c1, c0, d1, d0, e1, e0, 90] = DR.ok v ∧
        UtcTime.to_string v =
          [y1, y0, a1, a0, b1, b0, c1, c0, d1, d0, e1, e0, 90]) ∧
    (∀ p1 p2 p3 p4 q1 q2 r1 r2 s1 s2 t1 t2 u1 u2 : Nat,
      digitB p1 → digitB p2 → digitB p3 → digitB p4 → digitB q1 → digitB q2 →
      digitB r1 → digitB r2 → digitB s1 → digitB s2 → digitB t1 → digitB t2 →
      digitB u1 → digitB u2 →
      dateValid ((fv p1 p2 p3 p4 : Int)) (tv q1 q2) (tv r1 r2) →
      tv s1 s2 < 24 → tv t1 t2 < 60 → tv u1 u2 < 60 →
      ∃ v, GeneralizedTime.from_primitive
          [p1, p2, p3, p4, q1, q2, r1, r2, s1, s2, t1, t2, u1, u2, 90] = DR.ok v ∧
        GeneralizedTime.to_string v =
          [p1, p2, p3, p4, q1, q2, r1, r2, s1, s2, t1, t2, u1, u2, 90]) := by
  constructor
  · intro y1 y0 a1 a0 b1 b0 c1 c0 d1 d0 e1 e0 hy1 hy0 ha1 ha0 hb1 hb0 hc1 hc0
      hd1 hd0 he1 he0 hdate hh hm hs
    rw [utc_core y1 y0 a1 a0 b1 b0 c1 c0 d1 d0 e1 e0 hy1 hy0 ha1 ha0 hb1 hb0
      hc1 hc0 hd1 hd0 he1 he0]
    rw [if_pos ⟨hdate, hh, hm, hs⟩]
    refine ⟨_, rfl, ?_⟩
    simp only [UtcTime.to_string]
    rw [utcCentury_tmod (tv_lt hy1 hy0), fmtInt_ofNat, fmtNat_tv hy1 hy0,
      fmtNat_tv ha1 ha0, fmtNat_tv hb1 hb0, fmtNat_tv hc1 hc0, fmtNat_tv hd1 hd0,
      fmtNat_tv he1 he0]
    rfl
  · intro p1 p2 p3 p4 q1 q2 r1 r2 s1 s2 t1 t2 u1 u2 hp1 hp2 hp3 hp4 hq1 hq2
      hr1 hr2 hs1 hs2 ht1 ht2 hu1 hu2 hdate hh hm hs
    have hsplit : ([p1, p2, p3, p4, q1, q2, r1, r2, s1, s2, t1, t2, u1, u2, 90] :
        List Nat) =
        [p1, p2, p3, p4, q1, q2, r1, r2, s1, s2, t1, t2, u1, u2] ++ [90] := rfl
    have hascii : ∀ x ∈ ([p1, p2, p3, p4, q1, q2, r1, r2, s1, s2, t1, t2, u1, u2] :
        List Nat), x < 128 := by
      intro x hx
      simp only [List.mem_cons, List.not_mem_nil, or_false] at hx
      rcases hx with rfl | rfl | rfl | rfl | rfl | rfl | rfl | rfl | rfl | rfl |
        rfl | rfl | rfl | rfl <;> exact digitB_lt128 (by assumption)
    rw [hsplit, gt_decode_append _ (by simp)]
    simp only [utf8Decode_ascii _ hascii]
    rw [if_pos (by simp)]
    rw [parseNoFrac_digits p1 p2 p3 p4 q1 q2 r1 r2 s1 s2 t1 t2 u1 u2 hp1 hp2 hp3
      hp4 hq1 hq2 hr1 hr2 hs1 hs2 ht1 ht2 hu1 hu2]
    rw [parsedToDT_no60 _ _ _ _ _ _ _ (by omega : tv u1 u2 ≠ 60)]
    rw [if_pos ⟨hdate, hs, hh, hm, by omega⟩]
    refine ⟨_, rfl, ?_⟩
    simp only [GeneralizedTime.to_string]
    rw [fmtInt_ofNat, fmtNat_fv hp1 hp2 hp3 hp4, fmtNat_tv hq1 hq2,
      fmtNat_tv hr1 hr2, fmtNat_tv hs1 hs2, fmtNat_tv ht1 ht2, fmtNat_tv hu1 hu2]
    rfl

/-- Witness for C1 at the concrete inputs `490101000000Z` and
`20230615143000Z`. -/
theorem claim1_roundtrip_witness :
    (∃ v, UtcTime.from_primitive
        [52, 57, 48, 49, 48, 49, 48, 48, 48, 48, 48, 48, 90] = DR.ok v ∧
      UtcTime.to_string v = [52, 57, 48, 49, 48, 49, 48, 48, 48, 48, 48, 48, 90]) ∧
    (∃ v, GeneralizedTime.from_primitive
        [50, 48, 50, 51, 48, 54, 49, 53, 49, 52, 51, 48, 48, 48, 90] = DR.ok v ∧
      GeneralizedTime.to_string v =
        [50, 48, 50, 51, 48, 54, 49, 53, 49, 52, 51, 48, 48, 48, 90]) :=
  ⟨claim1_roundtrip.1 52 57 48 49 48 49 48 48 48 48 48 48 (by decide) (by decide)
    (by decide) (by decide) (by decide) (by decide) (by decide) (by decide)
    (by decide) (by decide) (by decide) (by decide) (by decide) (by decide)
    (by decide) (by decide),
  claim1_roundtrip.2 50 48 50 51 48 54 49 53 49 52 51 48 48 48 (by decide)
    (by decide) (by decide) (by decide) (by decide) (by decide) (by decide)
    (by decide) (by decide) (by decide) (by decide) (by decide) (by decide)
    (by decide) (by decide) (by decide) (by decide) (by decide)⟩

/-- Claim C5: for every successfully decoded UtcTime input the stored
full year is `1900 + YY` when the raw two-digit year field `YY` is at
least 50 and `2000 + YY` otherwise; in particular year field 49 decodes
to 2049 and year field 50 decodes to 1950. -/
theorem claim5_century :
    (∀ data v, UtcTime.from_primitive data = DR.ok v →
      ∃ yy : Int, utcRawYear data = DR.ok yy ∧ v.year = utcCentury yy ∧
        (50 ≤ yy → v.year = 1900 + yy) ∧ (yy < 50 → v.year = 2000 + yy)) ∧
    (∃ v, UtcTime.from_primitive (bytes ("490101000000Z")) = DR.ok v ∧
      v.year = 2049) ∧
    (∃ v, UtcTime.from_primitive (bytes ("500101000000Z")) = DR.ok v ∧
      v.year = 1950) := by
  refine ⟨?_, ⟨⟨2049, 1, 1, 0, 0, 0, 0⟩, by decide, rfl⟩,
    ⟨⟨1950, 1, 1, 0, 0, 0, 0⟩, by decide, rfl⟩⟩
  intro data v h
  rw [UtcTime.from_primitive] at h
  by_cases hl : data.length ≠ 13
  · rw [if_pos hl] at h
    exact DR.noConfusion h
  · rw [if_neg hl] at h
    obtain ⟨yy, hy, h⟩ := DR.bind_eq_ok h
    obtain ⟨mo, hmo, h⟩ := DR.bind_eq_ok h
    obtain ⟨dd, hdd, h⟩ := DR.bind_eq_ok h
    obtain ⟨hh, hhh, h⟩ := DR.bind_eq_ok h
    obtain ⟨mi, hmi, h⟩ := DR.bind_eq_ok h
    obtain ⟨ss, hss, h⟩ := DR.bind_eq_ok h
    refine ⟨yy, hy, ?_⟩
    split at h
    · exact DR.noConfusion h
    · split at h
      · exact DR.noConfusion h
      · split at h
        · have hv := DR.ok.inj h
          refine ⟨by rw [← hv], ?_, ?_⟩
          · intro h50
            rw [← hv]
            show utcCentury yy = 1900 + yy
            simp only [utcCentury, if_pos h50]
            omega
          · intro h50
            rw [← hv]
            show utcCentury yy = 2000 + yy
            simp only [utcCentury, if_neg (by omega : ¬ 50 ≤ yy)]
            omega
        · exact DR.noConfusion h

/-- Witness for C5 at the concrete input `490101000000Z`. -/
theorem claim5_century_witness :
    ∃ yy : Int, utcRawYear (bytes ("490101000000Z")) = DR.ok yy ∧
      (⟨2049, 1, 1, 0, 0, 0, 0⟩ : DT).year = utcCentury yy ∧
      (50 ≤ yy → (⟨2049, 1, 1, 0, 0, 0, 0⟩ : DT).year = 1900 + yy) ∧
      (yy < 50 → (⟨2049, 1, 1, 0, 0, 0, 0⟩ : DT).year = 2000 + yy) :=
  claim5_century.1 (bytes ("490101000000Z")) ⟨2049, 1, 1, 0, 0, 0, 0⟩ (by decide)

/-- Claim C8: `Time` decoding dispatches purely on the supplied tag: the
UTCTime tag routes the content to the UtcTime decoder, the
GeneralizedTime tag routes it to the GeneralizedTime decoder and any
other tag is `Malformed`; in particular UtcTime-shaped content under the
GeneralizedTime tag is validated against the GeneralizedTime grammar
(here: rejected as too short). -/
theorem claim8_dispatch :
    (∀ data, Time.take_from ATag.utcTime data =
      DR.bind (UtcTime.from_primitive data) (fun v => DR.ok (Time.UtcTime v))) ∧
    (∀ data, Time.take_from ATag.generalizedTime data =
      DR.bind (GeneralizedTime.from_primitive data)
        (fun v => DR.ok (Time.GeneralTime v))) ∧
    (∀ data, Time.take_from ATag.other data = DR.malformed) ∧
    Time.take_from ATag.generalizedTime (bytes ("230615143000Z")) = DR.malformed ∧
    Time.take_from ATag.utcTime (bytes ("230615143000Z")) =
      DR.ok (Time.UtcTime ⟨2023, 6, 15, 14, 30, 0, 0⟩) :=
  ⟨fun _ => rfl, fun _ => rfl, fun _ => rfl, by decide, by decide⟩

/-- Claim C9: encoding a `Time` uses the stored leaf variant's codec and
tag — `UtcTime` values re-encode through the UtcTime encoder under the
UTCTime tag (13 bytes for values with a representable non-negative year)
and `GeneralizedTime` values through the GeneralizedTime encoder under
the GeneralizedTime tag (15 bytes for years 0..9999); the variant is
never changed by encoding. -/
theorem claim9_encode_variant :
    ∀ t : Time,
      (∀ v, t = Time.UtcTime v →
        Time.encode_ref t = (ATag.utcTime, UtcTime.to_string v) ∧
        (DTValid v → 0 ≤ v.year → (UtcTime.to_string v).length = 13)) ∧
      (∀ v, t = Time.GeneralTime v →
        Time.encode_ref t = (ATag.generalizedTime, GeneralizedTime.to_string v) ∧
        (DTValid v → 0 ≤ v.year → v.year ≤ 9999 →
          (GeneralizedTime.to_string v).length = 15)) := by
  intro t
  constructor
  · intro v ht
    subst ht
    refine ⟨rfl, ?_⟩
    intro hval hy
    obtain ⟨n, hn⟩ := Int.eq_ofNat_of_zero_le hy
    rcases hval with ⟨hdate, hh, hm, hs, _⟩
    have hmo : v.month < 100 := by
      rcases hdate with ⟨_, _, _, h12, _, _⟩
      omega
    have hd : v.day < 100 := by
      rcases hdate with ⟨_, _, _, _, _, hdm⟩
      have := daysInMonth_le v.year v.month
      omega
    rw [UtcTime.to_string, hn]
    show (fmtInt 2 (Int.tmod ((n : Int)) ((100 : Nat) : Int)) ++ _ ++ _ ++ _ ++
      _ ++ _ ++ _).length = 13
    rw [tmod_ofNat, fmtInt_ofNat]
    simp only [List.length_append, List.length_cons, List.length_nil]
    rw [fmtNat_length2 (Nat.mod_lt n (by omega)), fmtNat_length2 hmo,
      fmtNat_length2 hd, fmtNat_length2 (by omega : v.hour < 100),
      fmtNat_length2 (by omega : v.minute < 100),
      fmtNat_length2 (by omega : v.second < 100)]
  · intro v ht
    subst ht
    refine ⟨rfl, ?_⟩
    intro hval hy hy2
    obtain ⟨n, hn⟩ := Int.eq_ofNat_of_zero_le hy
    rcases hval with ⟨hdate, hh, hm, hs, _⟩
    have hmo : v.month < 100 := by
      rcases hdate with ⟨_, _, _, h12, _, _⟩
      omega
    have hd : v.day < 100 := by
      rcases hdate with ⟨_, _, _, _, _, hdm⟩
      have := daysInMonth_le v.year v.month
      omega
    have hn4 : n < 10000 := by
      rw [hn] at hy2
      omega
    rw [GeneralizedTime.to_string, hn, fmtInt_ofNat]
    simp only [List.length_append, List.length_cons, List.length_nil]
    rw [fmtNat_length4 hn4, fmtNat_length2 hmo, fmtNat_length2 hd,
      fmtNat_length2 (by omega : v.hour < 100),
      fmtNat_length2 (by omega : v.minute < 100),
      fmtNat_length2 (by omega : v.second < 100)]

/-- Witness for C9 at a concrete `Time` value of each variant. -/
theorem claim9_encode_variant_witness :
    (Time.encode_ref (Time.UtcTime ⟨2049, 1, 1, 0, 0, 0, 0⟩) =
      (ATag.utcTime, UtcTime.to_string ⟨2049, 1, 1, 0, 0, 0, 0⟩) ∧
      (UtcTime.to_string ⟨2049, 1, 1, 0, 0, 0, 0⟩).length = 13) ∧
    (Time.encode_ref (Time.GeneralTime ⟨2023, 6, 15, 14, 30, 0, 0⟩) =
      (ATag.generalizedTime, GeneralizedTime.to_string ⟨2023, 6, 15, 14, 30, 0, 0⟩) ∧
      (GeneralizedTime.to_string ⟨2023, 6, 15, 14, 30, 0, 0⟩).length = 15) := by
  constructor
  · have h := (claim9_encode_variant (Time.UtcTime ⟨2049, 1, 1, 0, 0, 0, 0⟩)).1
      ⟨2049, 1, 1, 0, 0, 0, 0⟩ rfl
    exact ⟨h.1, h.2 (by decide) (by decide)⟩
  · have h := (claim9_encode_variant
      (Time.GeneralTime ⟨2023, 6, 15, 14, 30, 0, 0⟩)).2
      ⟨2023, 6, 15, 14, 30, 0, 0⟩ rfl
    exact ⟨h.1, h.2 (by decide) (by decide) (by decide)⟩

/-! ### The fractional-seconds path of GeneralizedTime -/

theorem digitsVal_lt (l : List Nat) (h : allDigits l) :
    digitsVal l < 10 ^ l.length := by
  suffices H : ∀ (m : List Nat) (a : Nat), allDigits m →
      m.foldl (fun a c => a * 10 + (c - 48)) a < (a + 1) * 10 ^ m.length by
    have h0 := H l 0 h
    simpa [digitsVal] using h0
  intro m
  induction m with
  | nil =>
    intro a _
    simp
  | cons c t ih =>
    intro a hall
    have hc : digitB c := hall c (List.mem_cons_self c t)
    have ht : allDigits t := fun x hx => hall x (List.mem_cons_of_mem c hx)
    simp only [List.foldl_cons, List.length_cons]
    have h1 := ih (a * 10 + (c - 48)) ht
    have h2 : a * 10 + (c - 48) + 1 ≤ (a + 1) * 10 := by
      rcases hc with ⟨hc1, hc2⟩
      omega
    calc t.foldl (fun a c => a * 10 + (c - 48)) (a * 10 + (c - 48)) <
        (a * 10 + (c - 48) + 1) * 10 ^ t.length := h1
    _ ≤ (a + 1) * 10 * 10 ^ t.length := Nat.mul_le_mul_right _ h2
    _ = (a + 1) * 10 ^ (t.length + 1) := by ring

theorem gt_frac_core (p1 p2 p3 p4 q1 q2 r1 r2 s1 s2 t1 t2 u1 u2 : Nat)
    (frac : List Nat)
    (hp1 : digitB p1) (hp2 : digitB p2) (hp3 : digitB p3) (hp4 : digitB p4)
    (hq1 : digitB q1) (hq2 : digitB q2) (hr1 : digitB r1) (hr2 : digitB r2)
    (hs1 : digitB s1) (hs2 : digitB s2) (ht1 : digitB t1) (ht2 : digitB t2)
    (hu1 : digitB u1) (hu2 : digitB u2)
    (hfd : allDigits frac) (hk : frac.length ≤ 9) :
    GeneralizedTime.from_primitive
        (([p1, p2, p3, p4, q1, q2, r1, r2, s1, s2, t1, t2, u1, u2] ++ 46 :: frac)
          ++ [90]) =
      (match parsedToDT ((fv p1 p2 p3 p4 : Int)) (tv q1 q2) (tv r1 r2) (tv s1 s2)
          (tv t1 t2) (tv u1 u2)
          (digitsVal (frac ++ List.replicate (9 - frac.length) 48)) with
      | none => DR.malformed
      | some dt => DR.ok dt) := by
  have hascii : ∀ x ∈ ([p1, p2, p3, p4, q1, q2, r1, r2, s1, s2, t1, t2, u1, u2] ++
      46 :: frac), x < 128 := by
    intro x hx
    rcases List.mem_append.1 hx with hx | hx
    · simp only [List.mem_cons, List.not_mem_nil, or_false] at hx
      rcases hx with rfl | rfl | rfl | rfl | rfl | rfl | rfl | rfl | rfl | rfl |
        rfl | rfl | rfl | rfl <;> exact digitB_lt128 (by assumption)
    · rcases List.mem_cons.1 hx with rfl | hx
      · omega
      · exact digitB_lt128 (hfd x hx)
  rw [gt_decode_append _ (by
    simp only [List.length_append, List.length_cons, List.length_nil]
    omega)]
  simp only [utf8Decode_ascii _ hascii]
  rw [if_neg (by
    simp only [List.length_append, List.length_cons, List.length_nil]
    omega)]
  have hlen : ([p1, p2, p3, p4, q1, q2, r1, r2, s1, s2, t1, t2, u1, u2] ++
      46 :: frac).length = 15 + frac.length := by
    simp only [List.length_append, List.length_cons, List.length_nil]
    omega
  have hpad : padTo24 ([p1, p2, p3, p4, q1, q2, r1, r2, s1, s2, t1, t2, u1, u2] ++
      46 :: frac) =
      p1 :: p2 :: p3 :: p4 :: q1 :: q2 :: r1 :: r2 :: s1 :: s2 :: t1 :: t2 :: u1 ::
        u2 :: 46 :: (frac ++ List.replicate (9 - frac.length) 48) := by
    rw [padTo24, hlen]
    have h24 : 24 - (15 + frac.length) = 9 - frac.length := by omega
    rw [h24]
    simp [List.append_assoc]
  rw [hpad]
  rw [parseFrac_digits p1 p2 p3 p4 q1 q2 r1 r2 s1 s2 t1 t2 u1 u2
    (frac ++ List.replicate (9 - frac.length) 48) hp1 hp2 hp3 hp4 hq1 hq2 hr1 hr2
    hs1 hs2 ht1 ht2 hu1 hu2
    (by
      simp only [List.length_append, List.length_replicate]
      omega)
    (by
      intro c hc
      rcases List.mem_append.1 hc with hc | hc
      · exact hfd c hc
      · rw [List.eq_of_mem_replicate hc]
        exact ⟨by omega, by omega⟩)]

theorem gt_frac_long (p1 p2 p3 p4 q1 q2 r1 r2 s1 s2 t1 t2 u1 u2 : Nat)
    (frac : List Nat)
    (hp1 : digitB p1) (hp2 : digitB p2) (hp3 : digitB p3) (hp4 : digitB p4)
    (hq1 : digitB q1) (hq2 : digitB q2) (hr1 : digitB r1) (hr2 : digitB r2)
    (hs1 : digitB s1) (hs2 : digitB s2) (ht1 : digitB t1) (ht2 : digitB t2)
    (hu1 : digitB u1) (hu2 : digitB u2)
    (hfd : allDigits frac) (h10 : 10 ≤ frac.length) :
    GeneralizedTime.from_primitive
        (([p1, p2, p3, p4, q1, q2, r1, r2, s1, s2, t1, t2, u1, u2] ++ 46 :: frac)
          ++ [90]) = DR.malformed := by
  have hascii : ∀ x ∈ ([p1, p2, p3, p4, q1, q2, r1, r2, s1, s2, t1, t2, u1, u2] ++
      46 :: frac), x < 128 := by
    intro x hx
    rcases List.mem_append.1 hx with hx | hx
    · simp only [List.mem_cons, List.not_mem_nil, or_false] at hx
      rcases hx with rfl | rfl | rfl | rfl | rfl | rfl | rfl | rfl | rfl | rfl |
        rfl | rfl | rfl | rfl <;> exact digitB_lt128 (by assumption)
    · rcases List.mem_cons.1 hx with rfl | hx
      · omega
      · exact digitB_lt128 (hfd x hx)
  rw [gt_decode_append _ (by
    simp only [List.length_append, List.length_cons, List.length_nil]
    omega)]
  simp only [utf8Decode_ascii _ hascii]
  rw [if_neg (by
    simp only [List.length_append, List.length_cons, List.length_nil]
    omega)]
  have hpad : padTo24 ([p1, p2, p3, p4, q1, q2, r1, r2, s1, s2, t1, t2, u1, u2] ++
      46 :: frac) =
      p1 :: p2 :: p3 :: p4 :: q1 :: q2 :: r1 :: r2 :: s1 :: s2 :: t1 :: t2 :: u1 ::
        u2 :: 46 :: frac := by
    rw [padTo24]
    have h24 : 24 - ([p1, p2, p3, p4, q1, q2, r1, r2, s1, s2, t1, t2, u1, u2] ++
        46 :: frac).length = 0 := by
      simp only [List.length_append, List.length_cons, List.length_nil]
      omega
    rw [h24]
    simp
  rw [hpad]
  have hy : ¬ ((fv p1 p2 p3 p4 : Int) < -2147483648 ∨
      2147483647 < (fv p1 p2 p3 p4 : Int)) := by
    have := fv_lt hp1 hp2 hp3 hp4
    omega
  have hn : scanNano9 frac = some (digitsVal (frac.take 9), frac.drop 9) := by
    rw [scanNano9, if_pos]
    exact ⟨by omega, fun c hc => hfd c (List.mem_of_mem_take hc)⟩
  have hdrop : frac.drop 9 ≠ [] := by
    intro hcon
    have := congrArg List.length hcon
    simp only [List.length_drop, List.length_nil] at this
    omega
  simp only [parseFrac, parseNumericSigned_four _ hp1 hp2 hp3 hp4, if_neg hy,
    parseNumericU_two _ hq1 hq2, parseNumericU_two _ hr1 hr2,
    parseNumericU_two _ hs1 hs2, parseNumericU_two _ ht1 ht2,
    parseNumericU_two _ hu1 hu2, if_pos rfl, if_true, hn, if_neg hdrop]

/-- Claim C2, amended: a fractional-seconds suffix of up to nine explicit
digits is accepted (right-padded to nanosecond width), but a suffix with
ten or more digits leaves unconsumed input after the nine-digit
nanosecond item and decoding fails with Malformed rather than
truncating. -/
theorem claim2_fraction_digits :
    (∀ p1 p2 p3 p4 q1 q2 r1 r2 s1 s2 t1 t2 u1 u2 : Nat, ∀ frac : List Nat,
      digitB p1 → digitB p2 → digitB p3 → digitB p4 → digitB q1 → digitB q2 →
      digitB r1 → digitB r2 → digitB s1 → digitB s2 → digitB t1 → digitB t2 →
      digitB u1 → digitB u2 →
      allDigits frac → frac.length ≤ 9 →
      dateValid ((fv p1 p2 p3 p4 : Int)) (tv q1 q2) (tv r1 r2) →
      tv s1 s2 < 24 → tv t1 t2 < 60 → tv u1 u2 < 60 →
      ∃ v, GeneralizedTime.from_primitive
          (([p1, p2, p3, p4, q1, q2, r1, r2, s1, s2, t1, t2, u1, u2] ++
            46 :: frac) ++ [90]) = DR.ok v ∧
        v.nano = digitsVal (frac ++ List.replicate (9 - frac.length) 48)) ∧
    (∀ p1 p2 p3 p4 q1 q2 r1 r2 s1 s2 t1 t2 u1 u2 : Nat, ∀ frac : List Nat,
      digitB p1 → digitB p2 → digitB p3 → digitB p4 → digitB q1 → digitB q2 →
      digitB r1 → digitB r2 → digitB s1 → digitB s2 → digitB t1 → digitB t2 →
      digitB u1 → digitB u2 →
      allDigits frac → 10 ≤ frac.length →
      GeneralizedTime.from_primitive
          (([p1, p2, p3, p4, q1, q2, r1, r2, s1, s2, t1, t2, u1, u2] ++
            46 :: frac) ++ [90]) = DR.malformed) := by
  constructor
  · intro p1 p2 p3 p4 q1 q2 r1 r2 s1 s2 t1 t2 u1 u2 frac hp1 hp2 hp3 hp4 hq1 hq2
      hr1 hr2 hs1 hs2 ht1 ht2 hu1 hu2 hfd hk hdate hh hm hsec
    rw [gt_frac_core p1 p2 p3 p4 q1 q2 r1 r2 s1 s2 t1 t2 u1 u2 frac hp1 hp2 hp3
      hp4 hq1 hq2 hr1 hr2 hs1 hs2 ht1 ht2 hu1 hu2 hfd hk]
    rw [parsedToDT_no60 _ _ _ _ _ _ _ (by omega : tv u1 u2 ≠ 60)]
    have hnano : digitsVal (frac ++ List.replicate (9 - frac.length) 48) <
        2000000000 := by
      have h9 : (frac ++ List.replicate (9 - frac.length) 48).length = 9 := by
        simp only [List.length_append, List.length_replicate]
        omega
      have := digitsVal_lt (frac ++ List.replicate (9 - frac.length) 48) (by
        intro c hc
        rcases List.mem_append.1 hc with hc | hc
        · exact hfd c hc
        · rw [List.eq_of_mem_replicate hc]
          exact ⟨by omega, by omega⟩)
      rw [h9] at this
      have hpow : (10 : Nat) ^ 9 = 1000000000 := by norm_num
      omega
    rw [if_pos ⟨hdate, hsec, hh, hm, hnano⟩]
    exact ⟨_, rfl, rfl⟩
  · intro p1 p2 p3 p4 q1 q2 r1 r2 s1 s2 t1 t2 u1 u2 frac hp1 hp2 hp3 hp4 hq1 hq2
      hr1 hr2 hs1 hs2 ht1 ht2 hu1 hu2 hfd h10
    exact gt_frac_long p1 p2 p3 p4 q1 q2 r1 r2 s1 s2 t1 t2 u1 u2 frac hp1 hp2 hp3
      hp4 hq1 hq2 hr1 hr2 hs1 hs2 ht1 ht2 hu1 hu2 hfd h10

/-- Counterexample for C2 as stated: the content
`20230615143000.1234567890Z` carries ten explicit fraction digits and has
calendar-valid fields, yet decoding fails with Malformed instead of
succeeding with truncation. -/
theorem claim2_counterexample :
    GeneralizedTime.from_primitive (bytes ("20230615143000.1234567890Z")) =
      DR.malformed := by decide

/-- Witness for the amended C2 at the concrete inputs
`20230615143000.123Z` (three fraction digits, accepted) and
`20230615143000.1234567890Z` (ten digits, rejected). -/
theorem claim2_fraction_digits_witness :
    (∃ v, GeneralizedTime.from_primitive
        (([50, 48, 50, 51, 48, 54, 49, 53, 49, 52, 51, 48, 48, 48] ++
          46 :: [49, 50, 51]) ++ [90]) = DR.ok v ∧
      v.nano = digitsVal ([49, 50, 51] ++
        List.replicate (9 - ([49, 50, 51] : List Nat).length) 48)) ∧
    GeneralizedTime.from_primitive
        (([50, 48, 50, 51, 48, 54, 49, 53, 49, 52, 51, 48, 48, 48] ++
          46 :: [49, 50, 51, 52, 53, 54, 55, 56, 57, 48]) ++ [90]) =
      DR.malformed :=
  ⟨claim2_fraction_digits.1 50 48 50 51 48 54 49 53 49 52 51 48 48 48 [49, 50, 51]
    (by decide) (by decide) (by decide) (by decide) (by decide) (by decide)
    (by decide) (by decide) (by decide) (by decide) (by decide) (by decide)
    (by decide) (by decide) (by decide) (by decide) (by decide) (by decide)
    (by decide) (by decide),
  claim2_fraction_digits.2 50 48 50 51 48 54 49 53 49 52 51 48 48 48
    [49, 50, 51, 52, 53, 54, 55, 56, 57, 48]
    (by decide) (by decide) (by decide) (by decide) (by decide) (by decide)
    (by decide) (by decide) (by decide) (by decide) (by decide) (by decide)
    (by decide) (by decide) (by decide) (by decide)⟩

/-- Claim C3, amended: a fractional-seconds component that decodes
successfully is retained in the stored value — the nanosecond field of
the stored `DateTime` holds the fraction right-padded to nine digits —
while all whole-second calendar fields equal those obtained by decoding
the same input with the fraction removed (whose nanosecond field is 0);
the fraction is discarded only on re-encode. -/
theorem claim3_fraction_retained :
    ∀ p1 p2 p3 p4 q1 q2 r1 r2 s1 s2 t1 t2 u1 u2 : Nat, ∀ frac : List Nat,
      digitB p1 → digitB p2 → digitB p3 → digitB p4 → digitB q1 → digitB q2 →
      digitB r1 → digitB r2 → digitB s1 → digitB s2 → digitB t1 → digitB t2 →
      digitB u1 → digitB u2 →
      allDigits frac → frac.length ≤ 9 →
      dateValid ((fv p1 p2 p3 p4 : Int)) (tv q1 q2) (tv r1 r2) →
      tv s1 s2 < 24 → tv t1 t2 < 60 → tv u1 u2 < 60 →
      GeneralizedTime.from_primitive
          (([p1, p2, p3, p4, q1, q2, r1, r2, s1, s2, t1, t2, u1, u2] ++
            46 :: frac) ++ [90]) =
        DR.ok ⟨(fv p1 p2 p3 p4 : Int), tv q1 q2, tv r1 r2, tv s1 s2, tv t1 t2,
          tv u1 u2, digitsVal (frac ++ List.replicate (9 - frac.length) 48)⟩ ∧
      GeneralizedTime.from_primitive
          [p1, p2, p3, p4, q1, q2, r1, r2, s1, s2, t1, t2, u1, u2, 90] =
        DR.ok ⟨(fv p1 p2 p3 p4 : Int), tv q1 q2, tv r1 r2, tv s1 s2, tv t1 t2,
          tv u1 u2, 0⟩ := by
  intro p1 p2 p3 p4 q1 q2 r1 r2 s1 s2 t1 t2 u1 u2 frac hp1 hp2 hp3 hp4 hq1 hq2
    hr1 hr2 hs1 hs2 ht1 ht2 hu1 hu2 hfd hk hdate hh hm hsec
  constructor
  · rw [gt_frac_core p1 p2 p3 p4 q1 q2 r1 r2 s1 s2 t1 t2 u1 u2 frac hp1 hp2 hp3
      hp4 hq1 hq2 hr1 hr2 hs1 hs2 ht1 ht2 hu1 hu2 hfd hk]
    rw [parsedToDT_no60 _ _ _ _ _ _ _ (by omega : tv u1 u2 ≠ 60)]
    have hnano : digitsVal (frac ++ List.replicate (9 - frac.length) 48) <
        2000000000 := by
      have h9 : (frac ++ List.replicate (9 - frac.length) 48).length = 9 := by
        simp only [List.length_append, List.length_replicate]
        omega
      have := digitsVal_lt (frac ++ List.replicate (9 - frac.length) 48) (by
        intro c hc
        rcases List.mem_append.1 hc with hc | hc
        · exact hfd c hc
        · rw [List.eq_of_mem_replicate hc]
          exact ⟨by omega, by omega⟩)
      rw [h9] at this
      have hpow : (10 : Nat) ^ 9 = 1000000000 := by norm_num
      omega
    rw [if_pos ⟨hdate, hsec, hh, hm, hnano⟩]
  · have hsplit : ([p1, p2, p3, p4, q1, q2, r1, r2, s1, s2, t1, t2, u1, u2, 90] :
        List Nat) =
        [p1, p2, p3, p4, q1, q2, r1, r2, s1, s2, t1, t2, u1, u2] ++ [90] := rfl
    have hascii : ∀ x ∈ ([p1, p2, p3, p4, q1, q2, r1, r2, s1, s2, t1, t2, u1, u2] :
        List Nat), x < 128 := by
      intro x hx
      simp only [List.mem_cons, List.not_mem_nil, or_false] at hx
      rcases hx with rfl | rfl | rfl | rfl | rfl | rfl | rfl | rfl | rfl | rfl |
        rfl | rfl | rfl | rfl <;> exact digitB_lt128 (by assumption)
    rw [hsplit, gt_decode_append _ (by simp)]
    simp only [utf8Decode_ascii _ hascii]
    rw [if_pos (by simp)]
    rw [parseNoFrac_digits p1 p2 p3 p4 q1 q2 r1 r2 s1 s2 t1 t2 u1 u2 hp1 hp2 hp3
      hp4 hq1 hq2 hr1 hr2 hs1 hs2 ht1 ht2 hu1 hu2]
    rw [parsedToDT_no60 _ _ _ _ _ _ _ (by omega : tv u1 u2 ≠ 60)]
    rw [if_pos ⟨hdate, hsec, hh, hm, by omega⟩]

/-- Counterexample for C3 as stated: decoding `20230615143000.5Z`
succeeds but the stored value carries nanosecond 500000000 — not a zero
sub-second component — and differs from the value obtained by decoding
`20230615143000Z`. -/
theorem claim3_counterexample :
    GeneralizedTime.from_primitive (bytes ("20230615143000.5Z")) =
      DR.ok ⟨2023, 6, 15, 14, 30, 0, 500000000⟩ ∧
    (⟨2023, 6, 15, 14, 30, 0, 500000000⟩ : DT).nano ≠ 0 ∧
    GeneralizedTime.from_primitive (bytes ("20230615143000Z")) =
      DR.ok ⟨2023, 6, 15, 14, 30, 0, 0⟩ ∧
    (⟨2023, 6, 15, 14, 30, 0, 500000000⟩ : DT) ≠
      (⟨2023, 6, 15, 14, 30, 0, 0⟩ : DT) := by decide

/-- Witness for the amended C3 at the concrete input pair
`20230615143000.5Z` / `20230615143000Z`. -/
theorem claim3_fraction_retained_witness :
    GeneralizedTime.from_primitive
        (([50, 48, 50, 51, 48, 54, 49, 53, 49, 52, 51, 48, 48, 48] ++
          46 :: [53]) ++ [90]) =
      DR.ok ⟨(fv 50 48 50 51 : Int), tv 48 54, tv 49 53, tv 49 52, tv 51 48,
        tv 48 48, digitsVal ([53] ++ List.replicate (9 - ([53] : List Nat).length) 48)⟩ ∧
    GeneralizedTime.from_primitive
        [50, 48, 50, 51, 48, 54, 49, 53, 49, 52, 51, 48, 48, 48, 90] =
      DR.ok ⟨(fv 50 48 50 51 : Int), tv 48 54, tv 49 53, tv 49 52, tv 51 48,
        tv 48 48, 0⟩ :=
  claim3_fraction_retained 50 48 50 51 48 54 49 53 49 52 51 48 48 48 [53]
    (by decide) (by decide) (by decide) (by decide) (by decide) (by decide)
    (by decide) (by decide) (by decide) (by decide) (by decide) (by decide)
    (by decide) (by decide) (by decide) (by decide) (by decide) (by decide)
    (by decide) (by decide)

theorem natDigits_mem_lt : ∀ (n : Nat), ∀ x ∈ natDigits n, x < 10 := by
  intro n
  induction n using Nat.strong_induction_on with
  | _ n ih =>
    by_cases h : n < 10
    · rw [natDigits_small h]
      intro x hx
      rcases List.mem_cons.1 hx with rfl | hx
      · exact h
      · exact absurd hx (List.not_mem_nil x)
    · rw [natDigits_step (by omega)]
      intro x hx
      rcases List.mem_append.1 hx with hx | hx
      · exact ih (n / 10) (by omega) x hx
      · rcases List.mem_cons.1 hx with rfl | hx
        · exact Nat.mod_lt n (by omega)
        · exact absurd hx (List.not_mem_nil x)

theorem fmtNat_mem_ne_dot (w n : Nat) : ∀ c ∈ fmtNat w n, c ≠ 46 := by
  intro c hc
  rw [fmtNat] at hc
  rcases List.mem_append.1 hc with hc | hc
  · rw [List.eq_of_mem_replicate hc]
    omega
  · rcases List.mem_map.1 hc with ⟨d, _, rfl⟩
    omega

theorem fmtInt_mem_ne_dot (w : Nat) (x : Int) : ∀ c ∈ fmtInt w x, c ≠ 46 := by
  intro c hc
  rw [fmtInt] at hc
  by_cases hx : x < 0
  · rw [if_pos hx] at hc
    rcases List.mem_cons.1 hc with rfl | hc
    · omega
    · rcases List.mem_append.1 hc with hc | hc
      · rw [List.eq_of_mem_replicate hc]
        omega
      · rcases List.mem_map.1 hc with ⟨d, _, rfl⟩
        omega
  · rw [if_neg hx] at hc
    exact fmtNat_mem_ne_dot w x.natAbs c hc

/-- Claim C6, amended: for fraction-carrying GeneralizedTime inputs in
the canonical digit grammar with valid fields (seconds at most 59),
decode succeeds and encoding the decoded value yields exactly the
fixed-width 15-byte `YYYYMMDDHHMMSSZ` form with the fraction stripped;
no encoded GeneralizedTime ever contains a `.` byte, and the spec's
example `20230615143000.123456789Z` re-encodes as `20230615143000Z`.
(Outside the canonical grammar the parser's leniency admits
fraction-carrying inputs whose stored year needs more than four digits,
so the re-encode is not 15 bytes — see the counterexample.) -/
theorem claim6_encode_strips_fraction :
    (∀ p1 p2 p3 p4 q1 q2 r1 r2 s1 s2 t1 t2 u1 u2 : Nat, ∀ frac : List Nat,
      digitB p1 → digitB p2 → digitB p3 → digitB p4 → digitB q1 → digitB q2 →
      digitB r1 → digitB r2 → digitB s1 → digitB s2 → digitB t1 → digitB t2 →
      digitB u1 → digitB u2 →
      allDigits frac → frac.length ≤ 9 →
      dateValid ((fv p1 p2 p3 p4 : Int)) (tv q1 q2) (tv r1 r2) →
      tv s1 s2 < 24 → tv t1 t2 < 60 → tv u1 u2 < 60 →
      ∃ v, GeneralizedTime.from_primitive
          (([p1, p2, p3, p4, q1, q2, r1, r2, s1, s2, t1, t2, u1, u2] ++
            46 :: frac) ++ [90]) = DR.ok v ∧
        GeneralizedTime.to_string v =
          [p1, p2, p3, p4, q1, q2, r1, r2, s1, s2, t1, t2, u1, u2, 90]) ∧
    (∀ v : DT, ∀ c ∈ GeneralizedTime.to_string v, c ≠ 46) ∧
    (GeneralizedTime.from_primitive (bytes ("20230615143000.123456789Z")) =
      DR.ok ⟨2023, 6, 15, 14, 30, 0, 123456789⟩ ∧
    GeneralizedTime.to_string ⟨2023, 6, 15, 14, 30, 0, 123456789⟩ =
      bytes ("20230615143000Z")) := by
  refine ⟨?_, ?_, by decide, by decide⟩
  · intro p1 p2 p3 p4 q1 q2 r1 r2 s1 s2 t1 t2 u1 u2 frac hp1 hp2 hp3 hp4 hq1 hq2
      hr1 hr2 hs1 hs2 ht1 ht2 hu1 hu2 hfd hk hdate hh hm hsec
    rw [gt_frac_core p1 p2 p3 p4 q1 q2 r1 r2 s1 s2 t1 t2 u1 u2 frac hp1 hp2 hp3
      hp4 hq1 hq2 hr1 hr2 hs1 hs2 ht1 ht2 hu1 hu2 hfd hk]
    rw [parsedToDT_no60 _ _ _ _ _ _ _ (by omega : tv u1 u2 ≠ 60)]
    have hnano : digitsVal (frac ++ List.replicate (9 - frac.length) 48) <
        2000000000 := by
      have h9 : (frac ++ List.replicate (9 - frac.length) 48).length = 9 := by
        simp only [List.length_append, List.length_replicate]
        omega
      have := digitsVal_lt (frac ++ List.replicate (9 - frac.length) 48) (by
        intro c hc
        rcases List.mem_append.1 hc with hc | hc
        · exact hfd c hc
        · rw [List.eq_of_mem_replicate hc]
          exact ⟨by omega, by omega⟩)
      rw [h9] at this
      have hpow : (10 : Nat) ^ 9 = 1000000000 := by norm_num
      omega
    rw [if_pos ⟨hdate, hsec, hh, hm, hnano⟩]
    refine ⟨_, rfl, ?_⟩
    simp only [GeneralizedTime.to_string]
    rw [fmtInt_ofNat, fmtNat_fv hp1 hp2 hp3 hp4, fmtNat_tv hq1 hq2,
      fmtNat_tv hr1 hr2, fmtNat_tv hs1 hs2, fmtNat_tv ht1 ht2, fmtNat_tv hu1 hu2]
    rfl
  · intro v c hc
    simp only [GeneralizedTime.to_string] at hc
    rcases List.mem_append.1 hc with hc | hc
    · rcases List.mem_append.1 hc with hc | hc
      · rcases List.mem_append.1 hc with hc | hc
        · rcases List.mem_append.1 hc with hc | hc
          · rcases List.mem_append.1 hc with hc | hc
            · rcases List.mem_append.1 hc with hc | hc
              · exact fmtInt_mem_ne_dot 4 v.year c hc
              · exact fmtNat_mem_ne_dot 2 v.month c hc
            · exact fmtNat_mem_ne_dot 2 v.day c hc
          · exact fmtNat_mem_ne_dot 2 v.hour c hc
        · exact fmtNat_mem_ne_dot 2 v.minute c hc
      · exact fmtNat_mem_ne_dot 2 v.second c hc
    · rcases List.mem_cons.1 hc with rfl | hc
      · omega
      · exact absurd hc (List.not_mem_nil c)

/-- Counterexample for C6 as stated: the GeneralizedTime content
`+10000 0101000000.123456789Z` carries a fractional-seconds component
and decodes successfully (chrono's signed `%Y` consumes the five-digit
year 10000 and the following whitespace is trimmed before `%m`), yet
encoding the decoded value produces the 16-byte string
`100000101000000Z` — Rust's `{:04}` width is only a minimum — and not
the fixed-width 15-byte `YYYYMMDDHHMMSSZ` form. -/
theorem claim6_counterexample :
    GeneralizedTime.from_primitive (bytes ("+10000 0101000000.123456789Z")) =
      DR.ok ⟨10000, 1, 1, 0, 0, 0, 123456789⟩ ∧
    GeneralizedTime.to_string ⟨10000, 1, 1, 0, 0, 0, 123456789⟩ =
      bytes ("100000101000000Z") ∧
    (GeneralizedTime.to_string ⟨10000, 1, 1, 0, 0, 0, 123456789⟩).length ≠ 15 := by
  decide

/-- Witness for C6 at the concrete input `20230615143000.5Z`. -/
theorem claim6_encode_strips_fraction_witness :
    ∃ v, GeneralizedTime.from_primitive
        (([50, 48, 50, 51, 48, 54, 49, 53, 49, 52, 51, 48, 48, 48] ++
          46 :: [53]) ++ [90]) = DR.ok v ∧
      GeneralizedTime.to_string v =
        [50, 48, 50, 51, 48, 54, 49, 53, 49, 52, 51, 48, 48, 48, 90] :=
  claim6_encode_strips_fraction.1 50 48 50 51 48 54 49 53 49 52 51 48 48 48 [53]
    (by decide) (by decide) (by decide) (by decide) (by decide) (by decide)
    (by decide) (by decide) (by decide) (by decide) (by decide) (by decide)
    (by decide) (by decide) (by decide) (by decide) (by decide) (by decide)
    (by decide) (by decide)

/-! ### Absence of out-of-bounds accesses, and the error paths -/

theorem DR.bind_ne_oob {α β : Type} {x : DR α} {f : α → DR β} (hx : x ≠ DR.oob)
    (hf : ∀ a, f a ≠ DR.oob) : DR.bind x f ≠ DR.oob := by
  cases x with
  | ok a => exact hf a
  | malformed =>
    intro h
    exact DR.noConfusion h
  | oob => exact absurd rfl hx

theorem utcField_ne_oob (data : List Nat) (i : Nat) (h : i + 2 ≤ data.length) :
    utcField data i ≠ DR.oob := by
  rw [utcField]
  have hs : byteSlice data i (i + 2) = some ((data.take (i + 2)).drop i) := by
    rw [byteSlice, if_pos ⟨by omega, h⟩]
  simp only [hs]
  split
  · intro hcon
    exact DR.noConfusion hcon
  · split
    · intro hcon
      exact DR.noConfusion hcon
    · intro hcon
      exact DR.noConfusion hcon

theorem utcRawYear_ne_oob (data : List Nat) (h : 2 ≤ data.length) :
    utcRawYear data ≠ DR.oob := by
  rw [utcRawYear]
  have hs : byteSlice data 0 2 = some ((data.take 2).drop 0) := by
    rw [byteSlice, if_pos ⟨by omega, h⟩]
  simp only [hs]
  split
  · intro hcon
    exact DR.noConfusion hcon
  · split
    · intro hcon
      exact DR.noConfusion hcon
    · intro hcon
      exact DR.noConfusion hcon

theorem utc_ne_oob (data : List Nat) : UtcTime.from_primitive data ≠ DR.oob := by
  rw [UtcTime.from_primitive]
  by_cases hl : data.length ≠ 13
  · rw [if_pos hl]
    intro hcon
    exact DR.noConfusion hcon
  · rw [if_neg hl]
    have hlen : data.length = 13 := by omega
    refine DR.bind_ne_oob (utcRawYear_ne_oob data (by omega)) (fun yy => ?_)
    refine DR.bind_ne_oob (utcField_ne_oob data 2 (by omega)) (fun mo => ?_)
    refine DR.bind_ne_oob (utcField_ne_oob data 4 (by omega)) (fun d => ?_)
    refine DR.bind_ne_oob (utcField_ne_oob data 6 (by omega)) (fun h => ?_)
    refine DR.bind_ne_oob (utcField_ne_oob data 8 (by omega)) (fun mi => ?_)
    refine DR.bind_ne_oob (utcField_ne_oob data 10 (by omega)) (fun s => ?_)
    have hg : data.get? 12 = some (data.get ⟨12, by omega⟩) :=
      List.get?_eq_get (by omega)
    simp only [hg]
    split
    · intro hcon
      exact DR.noConfusion hcon
    · split
      · intro hcon
        exact DR.noConfusion hcon
      · intro hcon
        exact DR.noConfusion hcon

theorem gt_ne_oob (data : List Nat) :
    GeneralizedTime.from_primitive data ≠ DR.oob := by
  rw [GeneralizedTime.from_primitive]
  by_cases hlen : data.length < 15
  · rw [if_pos hlen]
    intro hcon
    exact DR.noConfusion hcon
  · rw [if_neg hlen]
    have hg : data.get? (data.length - 1) =
        some (data.get ⟨data.length - 1, by omega⟩) :=
      List.get?_eq_get (by omega)
    have hs : byteSlice data 0 (data.length - 1) =
        some ((data.take (data.length - 1)).drop 0) := by
      rw [byteSlice, if_pos ⟨by omega, by omega⟩]
    simp only [hg, hs]
    split
    · intro hcon
      exact DR.noConfusion hcon
    · split
      · intro hcon
        exact DR.noConfusion hcon
      · split
        · intro hcon
          exact DR.noConfusion hcon
        · intro hcon
          exact DR.noConfusion hcon

/-- Claim C10: both decoders are total on arbitrary content bytes — every
slice and index is guarded by the preceding length check, so decoding
always returns a value or Malformed and the out-of-bounds (panic) branch
is unreachable. -/
theorem claim10_total :
    ∀ data : List Nat,
      ((∃ v, UtcTime.from_primitive data = DR.ok v) ∨
        UtcTime.from_primitive data = DR.malformed) ∧
      ((∃ v, GeneralizedTime.from_primitive data = DR.ok v) ∨
        GeneralizedTime.from_primitive data = DR.malformed) := by
  intro data
  constructor
  · cases hr : UtcTime.from_primitive data with
    | ok v => exact Or.inl ⟨v, rfl⟩
    | malformed => exact Or.inr rfl
    | oob => exact absurd hr (utc_ne_oob data)
  · cases hr : GeneralizedTime.from_primitive data with
    | ok v => exact Or.inl ⟨v, rfl⟩
    | malformed => exact Or.inr rfl
    | oob => exact absurd hr (gt_ne_oob data)

theorem parsedToDT_60 (y : Int) (mo d h mi nano : Nat) :
    parsedToDT y mo d h mi 60 nano =
      (if dateValid y mo d ∧ h < 24 ∧ mi < 60 ∧
          nano + 1000000000 < 2000000000 then
        some ⟨y, mo, d, h, mi, 59, nano + 1000000000⟩
      else none) := by
  simp only [parsedToDT, if_pos rfl]
  by_cases hd : dateValid y mo d
  · simp only [hd, if_true, true_and, (by omega : (59 : Nat) < 60), true_and]
  · simp [hd]

theorem utc_ok_last (data : List Nat) (v : DT)
    (h : UtcTime.from_primitive data = DR.ok v) :
    data.length = 13 ∧ data.get? 12 = some 90 := by
  rw [UtcTime.from_primitive] at h
  by_cases hl : data.length ≠ 13
  · rw [if_pos hl] at h
    exact DR.noConfusion h
  · rw [if_neg hl] at h
    obtain ⟨yy, hy, h⟩ := DR.bind_eq_ok h
    obtain ⟨mo, hmo, h⟩ := DR.bind_eq_ok h
    obtain ⟨dd, hdd, h⟩ := DR.bind_eq_ok h
    obtain ⟨hh, hhh, h⟩ := DR.bind_eq_ok h
    obtain ⟨mi, hmi, h⟩ := DR.bind_eq_ok h
    obtain ⟨ss, hss, h⟩ := DR.bind_eq_ok h
    cases hz : data.get? 12 with
    | none =>
      simp only [hz] at h
      exact DR.noConfusion h
    | some z =>
      simp only [hz] at h
      by_cases hzz : z ≠ 90
      · rw [if_pos hzz] at h
        exact DR.noConfusion h
      · rw [if_neg hzz] at h
        have hz90 : z = 90 := by omega
        subst hz90
        exact ⟨by omega, rfl⟩

/-- Claim C7, amended: both decoders return Malformed on wrong content
lengths, on content not terminating in `Z`, and on fields that do not
resolve to a valid civil date and time-of-day — with the one deviation
that GeneralizedTime accepts the leap-second value 60 in the seconds
field (storing chrono's leap-second representation), rejecting only 61
and above, while UtcTime rejects 60 as the claim states. -/
theorem claim7_malformed_paths :
    (∀ data, data.length ≠ 13 → UtcTime.from_primitive data = DR.malformed) ∧
    (∀ data, data.length < 15 →
      GeneralizedTime.from_primitive data = DR.malformed) ∧
    (∀ data, (∀ b, data.getLast? = some b → b ≠ 90) →
      UtcTime.from_primitive data = DR.malformed) ∧
    (∀ data, (∀ b, data.getLast? = some b → b ≠ 90) →
      GeneralizedTime.from_primitive data = DR.malformed) ∧
    (∀ y1 y0 a1 a0 b1 b0 c1 c0 d1 d0 e1 e0 : Nat,
      digitB y1 → digitB y0 → digitB a1 → digitB a0 → digitB b1 → digitB b0 →
      digitB c1 → digitB c0 → digitB d1 → digitB d0 → digitB e1 → digitB e0 →
      ¬ (dateValid (utcCentury ((tv y1 y0 : Int))) (tv a1 a0) (tv b1 b0) ∧
        tv c1 c0 < 24 ∧ tv d1 d0 < 60 ∧ tv e1 e0 < 60) →
      UtcTime.from_primitive [y1, y0, a1, a0, b1, b0, c1, c0, d1, d0, e1, e0, 90] =
        DR.malformed) ∧
    (∀ p1 p2 p3 p4 q1 q2 r1 r2 s1 s2 t1 t2 u1 u2 : Nat,
      digitB p1 → digitB p2 → digitB p3 → digitB p4 → digitB q1 → digitB q2 →
      digitB r1 → digitB r2 → digitB s1 → digitB s2 → digitB t1 → digitB t2 →
      digitB u1 → digitB u2 →
      (¬ dateValid ((fv p1 p2 p3 p4 : Int)) (tv q1 q2) (tv r1 r2) ∨
        24 ≤ tv s1 s2 ∨ 60 ≤ tv t1 t2 ∨ 61 ≤ tv u1 u2) →
      GeneralizedTime.from_primitive
        [p1, p2, p3, p4, q1, q2, r1, r2, s1, s2, t1, t2, u1, u2, 90] =
        DR.malformed) ∧
    UtcTime.from_primitive (bytes ("230230123000Z")) = DR.malformed ∧
    GeneralizedTime.from_primitive (bytes ("20230230123000Z")) = DR.malformed := by
  refine ⟨?_, ?_, ?_, ?_, ?_, ?_, by decide, by decide⟩
  · intro data hl
    rw [UtcTime.from_primitive, if_pos hl]
  · intro data hl
    rw [GeneralizedTime.from_primitive]
    simp only [if_pos hl]
  · intro data hlast
    cases hr : UtcTime.from_primitive data with
    | malformed => rfl
    | oob => exact absurd hr (utc_ne_oob data)
    | ok v =>
      exfalso
      obtain ⟨hlen, hg⟩ := utc_ok_last data v hr
      have hlast90 : data.getLast? = some 90 := by
        rw [List.getLast?_eq_get?, hlen]
        exact hg
      exact hlast 90 hlast90 rfl
  · intro data hlast
    by_cases hlen : data.length < 15
    · rw [GeneralizedTime.from_primitive]
      simp only [if_pos hlen]
    · have hg : data.get? (data.length - 1) =
          some (data.get ⟨data.length - 1, by omega⟩) :=
        List.get?_eq_get (by omega)
      have hb : data.get ⟨data.length - 1, by omega⟩ ≠ 90 := by
        apply hlast
        rw [List.getLast?_eq_get?]
        exact hg
      rw [GeneralizedTime.from_primitive]
      simp only [if_neg hlen, hg]
      rw [if_pos hb]
  · intro y1 y0 a1 a0 b1 b0 c1 c0 d1 d0 e1 e0 hy1 hy0 ha1 ha0 hb1 hb0 hc1 hc0
      hd1 hd0 he1 he0 hbad
    rw [utc_core y1 y0 a1 a0 b1 b0 c1 c0 d1 d0 e1 e0 hy1 hy0 ha1 ha0 hb1 hb0
      hc1 hc0 hd1 hd0 he1 he0]
    rw [if_neg hbad]
  · intro p1 p2 p3 p4 q1 q2 r1 r2 s1 s2 t1 t2 u1 u2 hp1 hp2 hp3 hp4 hq1 hq2
      hr1 hr2 hs1 hs2 ht1 ht2 hu1 hu2 hbad
    have hsplit : ([p1, p2, p3, p4, q1, q2, r1, r2, s1, s2, t1, t2, u1, u2, 90] :
        List Nat) =
        [p1, p2, p3, p4, q1, q2, r1, r2, s1, s2, t1, t2, u1, u2] ++ [90] := rfl
    have hascii : ∀ x ∈ ([p1, p2, p3, p4, q1, q2, r1, r2, s1, s2, t1, t2, u1, u2] :
        List Nat), x < 128 := by
      intro x hx
      simp only [List.mem_cons, List.not_mem_nil, or_false] at hx
      rcases hx with rfl | rfl | rfl | rfl | rfl | rfl | rfl | rfl | rfl | rfl |
        rfl | rfl | rfl | rfl <;> exact digitB_lt128 (by assumption)
    rw [hsplit, gt_decode_append _ (by simp)]
    simp only [utf8Decode_ascii _ hascii]
    rw [if_pos (by simp)]
    rw [parseNoFrac_digits p1 p2 p3 p4 q1 q2 r1 r2 s1 s2 t1 t2 u1 u2 hp1 hp2 hp3
      hp4 hq1 hq2 hr1 hr2 hs1 hs2 ht1 ht2 hu1 hu2]
    by_cases h60 : tv u1 u2 = 60
    · rw [h60, parsedToDT_60]
      rw [if_neg (by
        rintro ⟨hd', hh', hmi', _⟩
        rcases hbad with hx | hx | hx | hx
        · exact hx hd'
        · omega
        · omega
        · omega)]
    · rw [parsedToDT_no60 _ _ _ _ _ _ _ h60]
      rw [if_neg (by
        rintro ⟨hd', hs', hh', hmi', _⟩
        rcases hbad with hx | hx | hx | hx
        · exact hx hd'
        · omega
        · omega
        · omega)]

/-- Counterexample for C7 as stated: GeneralizedTime accepts the
leap-second value 60 — `20230615235960Z` decodes to chrono's leap-second
representation instead of failing with Malformed — while the same
time-of-day under UtcTime is rejected. -/
theorem claim7_counterexample :
    GeneralizedTime.from_primitive (bytes ("20230615235960Z")) =
      DR.ok ⟨2023, 6, 15, 23, 59, 59, 1000000000⟩ ∧
    UtcTime.from_primitive (bytes ("230615235960Z")) = DR.malformed := by decide

/-- Witness for the amended C7 on concrete failing inputs: a 2-byte
content for both decoders, a content not ending in `Z`, and out-of-range
calendar fields. -/
theorem claim7_malformed_paths_witness :
    UtcTime.from_primitive [49, 50] = DR.malformed ∧
    GeneralizedTime.from_primitive [49, 50] = DR.malformed ∧
    UtcTime.from_primitive [50, 51, 48, 54, 49, 53, 49, 52, 51, 48, 48, 48, 88] =
      DR.malformed ∧
    UtcTime.from_primitive [50, 51, 48, 50, 51, 48, 49, 50, 51, 48, 48, 48, 90] =
      DR.malformed :=
  ⟨claim7_malformed_paths.1 [49, 50] (by decide),
  claim7_malformed_paths.2.1 [49, 50] (by decide),
  claim7_malformed_paths.2.2.1 [50, 51, 48, 54, 49, 53, 49, 52, 51, 48, 48, 48, 88]
    (by decide),
  claim7_malformed_paths.2.2.2.2.1 50 51 48 50 51 48 49 50 51 48 48 48
    (by decide) (by decide) (by decide) (by decide) (by decide) (by decide)
    (by decide) (by decide) (by decide) (by decide) (by decide) (by decide)
    (by decide)⟩

/-! ### Which bytes the chrono parser can ever consume -/

/-- Code points the GeneralizedTime parser is able to consume somewhere:
ASCII digits, the signs accepted by the signed year item, the fraction
dot, and the whitespace trimmed before numeric items. -/
def lenientCp (c : Nat) : Prop :=
  digitB c ∨ c = 43 ∨ c = 45 ∨ c = 46 ∨ isWsCp c

instance (c : Nat) : Decidable (lenientCp c) := by
  unfold lenientCp; infer_instance

theorem trimLeft_decomp (s : List Nat) :
    ∃ pre, s = pre ++ trimLeft s ∧ ∀ c ∈ pre, isWsCp c := by
  refine ⟨s.takeWhile (fun c => decide (isWsCp c)), ?_, ?_⟩
  · rw [trimLeft, List.takeWhile_append_dropWhile]
  · intro c hc
    have := List.mem_takeWhile_imp hc
    simpa using this

theorem scanNumber_decomp {w : Nat} {s : List Nat} {v : Nat} {r : List Nat}
    (h : scanNumber w s = some (v, r)) : ∃ pre, s = pre ++ r ∧ allDigits pre := by
  simp only [scanNumber] at h
  by_cases h1 : (takeDigits w s).1 = []
  · rw [if_pos h1] at h
    exact Option.noConfusion h
  · rw [if_neg h1] at h
    by_cases h2 : digitsVal (takeDigits w s).1 ≤ 9223372036854775807
    · rw [if_pos h2] at h
      have hinj := Option.some.inj h
      have hr : (takeDigits w s).2 = r := congrArg Prod.snd hinj
      refine ⟨(takeDigits w s).1, ?_, (takeDigits_decomp w s).2⟩
      rw [← hr]
      exact ((takeDigits_decomp w s).1).symm
    · rw [if_neg h2] at h
      exact Option.noConfusion h

theorem scanNumberAll_decomp {s : List Nat} {v : Nat} {r : List Nat}
    (h : scanNumberAll s = some (v, r)) : ∃ pre, s = pre ++ r ∧ allDigits pre := by
  simp only [scanNumberAll] at h
  by_cases h1 : s.takeWhile (fun c => decide (digitB c)) = []
  · rw [if_pos h1] at h
    exact Option.noConfusion h
  · rw [if_neg h1] at h
    by_cases h2 : digitsVal (s.takeWhile (fun c => decide (digitB c))) ≤
        9223372036854775807
    · rw [if_pos h2] at h
      have hinj := Option.some.inj h
      have hr : s.dropWhile (fun c => decide (digitB c)) = r :=
        congrArg Prod.snd hinj
      refine ⟨s.takeWhile (fun c => decide (digitB c)), ?_, ?_⟩
      · rw [← hr, List.takeWhile_append_dropWhile]
      · intro c hc
        have := List.mem_takeWhile_imp hc
        simpa using this
    · rw [if_neg h2] at h
      exact Option.noConfusion h

theorem parseNumericSigned_decomp {w : Nat} {s : List Nat} {v : Int}
    {r : List Nat} (h : parseNumericSigned w s = some (v, r)) :
    ∃ pre, s = pre ++ r ∧ ∀ c ∈ pre, lenientCp c := by
  obtain ⟨ws, hws, hwsall⟩ := trimLeft_decomp s
  rw [parseNumericSigned] at h
  cases ht : trimLeft s with
  | nil =>
    simp only [ht] at h
    exact Option.noConfusion h
  | cons c rest =>
    simp only [ht] at h
    rw [ht] at hws
    by_cases h45 : c = 45
    · rw [if_pos h45] at h
      rcases Option.map_eq_some'.1 h with ⟨⟨v2, r2⟩, hscan, heq⟩
      have hr : r2 = r := congrArg Prod.snd heq
      obtain ⟨pre2, hpre2, hd2⟩ := scanNumberAll_decomp hscan
      refine ⟨ws ++ c :: pre2, ?_, ?_⟩
      · rw [hws, hpre2, hr]
        simp
      · intro x hx
        rcases List.mem_append.1 hx with hx | hx
        · exact Or.inr (Or.inr (Or.inr (Or.inr (hwsall x hx))))
        · rcases List.mem_cons.1 hx with rfl | hx
          · exact Or.inr (Or.inr (Or.inl h45))
          · exact Or.inl (hd2 x hx)
    · rw [if_neg h45] at h
      by_cases h43 : c = 43
      · rw [if_pos h43] at h
        rcases Option.map_eq_some'.1 h with ⟨⟨v2, r2⟩, hscan, heq⟩
        have hr : r2 = r := congrArg Prod.snd heq
        obtain ⟨pre2, hpre2, hd2⟩ := scanNumberAll_decomp hscan
        refine ⟨ws ++ c :: pre2, ?_, ?_⟩
        · rw [hws, hpre2, hr]
          simp
        · intro x hx
          rcases List.mem_append.1 hx with hx | hx
          · exact Or.inr (Or.inr (Or.inr (Or.inr (hwsall x hx))))
          · rcases List.mem_cons.1 hx with rfl | hx
            · exact Or.inr (Or.inl h43)
            · exact Or.inl (hd2 x hx)
      · rw [if_neg h43] at h
        rcases Option.map_eq_some'.1 h with ⟨⟨v2, r2⟩, hscan, heq⟩
        have hr : r2 = r := congrArg Prod.snd heq
        obtain ⟨pre2, hpre2, hd2⟩ := scanNumber_decomp hscan
        refine ⟨ws ++ pre2, ?_, ?_⟩
        · rw [hws, hpre2, hr]
          simp
        · intro x hx
          rcases List.mem_append.1 hx with hx | hx
          · exact Or.inr (Or.inr (Or.inr (Or.inr (hwsall x hx))))
          · exact Or.inl (hd2 x hx)

theorem parseNumericU_decomp {w : Nat} {s : List Nat} {v : Nat} {r : List Nat}
    (h : parseNumericU w s = some (v, r)) :
    ∃ pre, s = pre ++ r ∧ ∀ c ∈ pre, lenientCp c := by
  rw [parseNumericU] at h
  obtain ⟨ws, hws, hwsall⟩ := trimLeft_decomp s
  obtain ⟨pre2, hpre2, hd2⟩ := scanNumber_decomp h
  refine ⟨ws ++ pre2, ?_, ?_⟩
  · rw [hws, hpre2]
    simp
  · intro x hx
    rcases List.mem_append.1 hx with hx | hx
    · exact Or.inr (Or.inr (Or.inr (Or.inr (hwsall x hx))))
    · exact Or.inl (hd2 x hx)

theorem scanNano9_decomp {s : List Nat} {v : Nat} {r : List Nat}
    (h : scanNano9 s = some (v, r)) : ∃ pre, s = pre ++ r ∧ allDigits pre := by
  rw [scanNano9] at h
  by_cases h1 : 9 ≤ s.length ∧ allDigits (s.take 9)
  · rw [if_pos h1] at h
    have hinj := Option.some.inj h
    have hr : s.drop 9 = r := congrArg Prod.snd hinj
    refine ⟨s.take 9, ?_, h1.2⟩
    rw [← hr, List.take_append_drop]
  · rw [if_neg h1] at h
    exact Option.noConfusion h

theorem parseNoFrac_lenient {s : List Nat} {v : DT} (h : parseNoFrac s = some v) :
    ∀ c ∈ s, lenientCp c := by
  rw [parseNoFrac] at h
  cases h1 : parseNumericSigned 4 s with
  | none =>
    simp only [h1] at h
    exact Option.noConfusion h
  | some p1 =>
    obtain ⟨y, s1⟩ := p1
    simp only [h1] at h
    by_cases hy : y < -2147483648 ∨ 2147483647 < y
    · rw [if_pos hy] at h
      exact Option.noConfusion h
    · rw [if_neg hy] at h
      cases h2 : parseNumericU 2 s1 with
      | none => simp only [h2] at h; exact Option.noConfusion h
      | some p2 =>
        obtain ⟨mo, s2⟩ := p2
        simp only [h2] at h
        cases h3 : parseNumericU 2 s2 with
        | none => simp only [h3] at h; exact Option.noConfusion h
        | some p3 =>
          obtain ⟨d, s3⟩ := p3
          simp only [h3] at h
          cases h4 : parseNumericU 2 s3 with
          | none => simp only [h4] at h; exact Option.noConfusion h
          | some p4 =>
            obtain ⟨hh, s4⟩ := p4
            simp only [h4] at h
            cases h5 : parseNumericU 2 s4 with
            | none => simp only [h5] at h; exact Option.noConfusion h
            | some p5 =>
              obtain ⟨mi, s5⟩ := p5
              simp only [h5] at h
              cases h6 : parseNumericU 2 s5 with
              | none => simp only [h6] at h; exact Option.noConfusion h
              | some p6 =>
                obtain ⟨sec, s6⟩ := p6
                simp only [h6] at h
                by_cases h7 : s6 = []
                · obtain ⟨pre1, he1, hl1⟩ := parseNumericSigned_decomp h1
                  obtain ⟨pre2, he2, hl2⟩ := parseNumericU_decomp h2
                  obtain ⟨pre3, he3, hl3⟩ := parseNumericU_decomp h3
                  obtain ⟨pre4, he4, hl4⟩ := parseNumericU_decomp h4
                  obtain ⟨pre5, he5, hl5⟩ := parseNumericU_decomp h5
                  obtain ⟨pre6, he6, hl6⟩ := parseNumericU_decomp h6
                  intro c hc
                  rw [he1] at hc
                  rcases List.mem_append.1 hc with hc | hc
                  · exact hl1 c hc
                  rw [he2] at hc
                  rcases List.mem_append.1 hc with hc | hc
                  · exact hl2 c hc
                  rw [he3] at hc
                  rcases List.mem_append.1 hc with hc | hc
                  · exact hl3 c hc
                  rw [he4] at hc
                  rcases List.mem_append.1 hc with hc | hc
                  · exact hl4 c hc
                  rw [he5] at hc
                  rcases List.mem_append.1 hc with hc | hc
                  · exact hl5 c hc
                  rw [he6] at hc
                  rcases List.mem_append.1 hc with hc | hc
                  · exact hl6 c hc
                  rw [h7] at hc
                  exact absurd hc (List.not_mem_nil c)
                · rw [if_neg h7] at h
                  exact Option.noConfusion h

theorem parseFrac_lenient {s : List Nat} {v : DT} (h : parseFrac s = some v) :
    ∀ c ∈ s, lenientCp c := by
  rw [parseFrac] at h
  cases h1 : parseNumericSigned 4 s with
  | none =>
    simp only [h1] at h
    exact Option.noConfusion h
  | some p1 =>
    obtain ⟨y, s1⟩ := p1
    simp only [h1] at h
    by_cases hy : y < -2147483648 ∨ 2147483647 < y
    · rw [if_pos hy] at h
      exact Option.noConfusion h
    · rw [if_neg hy] at h
      cases h2 : parseNumericU 2 s1 with
      | none => simp only [h2] at h; exact Option.noConfusion h
      | some p2 =>
        obtain ⟨mo, s2⟩ := p2
        simp only [h2] at h
        cases h3 : parseNumericU 2 s2 with
        | none => simp only [h3] at h; exact Option.noConfusion h
        | some p3 =>
          obtain ⟨d, s3⟩ := p3
          simp only [h3] at h
          cases h4 : parseNumericU 2 s3 with
          | none => simp only [h4] at h; exact Option.noConfusion h
          | some p4 =>
            obtain ⟨hh, s4⟩ := p4
            simp only [h4] at h
            cases h5 : parseNumericU 2 s4 with
            | none => simp only [h5] at h; exact Option.noConfusion h
            | some p5 =>
              obtain ⟨mi, s5⟩ := p5
              simp only [h5] at h
              cases h6 : parseNumericU 2 s5 with
              | none => simp only [h6] at h; exact Option.noConfusion h
              | some p6 =>
                obtain ⟨sec, s6⟩ := p6
                simp only [h6] at h
                cases h7 : s6 with
                | nil => simp only [h7] at h; exact Option.noConfusion h
                | cons cdot s7 =>
                  simp only [h7] at h
                  by_cases hdot : cdot = 46
                  · rw [if_pos hdot] at h
                    cases h8 : scanNano9 s7 with
                    | none => simp only [h8] at h; exact Option.noConfusion h
                    | some p8 =>
                      obtain ⟨nano, s8⟩ := p8
                      simp only [h8] at h
                      by_cases h9 : s8 = []
                      · obtain ⟨pre1, he1, hl1⟩ := parseNumericSigned_decomp h1
                        obtain ⟨pre2, he2, hl2⟩ := parseNumericU_decomp h2
                        obtain ⟨pre3, he3, hl3⟩ := parseNumericU_decomp h3
                        obtain ⟨pre4, he4, hl4⟩ := parseNumericU_decomp h4
                        obtain ⟨pre5, he5, hl5⟩ := parseNumericU_decomp h5
                        obtain ⟨pre6, he6, hl6⟩ := parseNumericU_decomp h6
                        obtain ⟨pre8, he8, hl8⟩ := scanNano9_decomp h8
                        intro c hc
                        rw [he1] at hc
                        rcases List.mem_append.1 hc with hc | hc
                        · exact hl1 c hc
                        rw [he2] at hc
                        rcases List.mem_append.1 hc with hc | hc
                        · exact hl2 c hc
                        rw [he3] at hc
                        rcases List.mem_append.1 hc with hc | hc
                        · exact hl3 c hc
                        rw [he4] at hc
                        rcases List.mem_append.1 hc with hc | hc
                        · exact hl4 c hc
                        rw [he5] at hc
                        rcases List.mem_append.1 hc with hc | hc
                        · exact hl5 c hc
                        rw [he6] at hc
                        rcases List.mem_append.1 hc with hc | hc
                        · exact hl6 c hc
                        rw [h7] at hc
                        rcases List.mem_cons.1 hc with rfl | hc
                        · exact Or.inr (Or.inr (Or.inr (Or.inl hdot)))
                        rw [he8] at hc
                        rcases List.mem_append.1 hc with hc | hc
                        · exact Or.inl (hl8 c hc)
                        rw [h9] at hc
                        exact absurd hc (List.not_mem_nil c)
                      · rw [if_neg h9] at h
                        exact Option.noConfusion h
                  · rw [if_neg hdot] at h
                    exact Option.noConfusion h

theorem utf8Decode_mem_aux :
    ∀ (n : Nat) (l : List Nat), l.length ≤ n → ∀ cps, utf8Decode l = some cps →
      ∀ b ∈ l, b < 128 → b ∈ cps := by
  intro n
  induction n with
  | zero =>
    intro l hl cps hdec b hb _
    have hnil : l = [] := List.eq_nil_of_length_eq_zero (by omega)
    subst hnil
    exact absurd hb (List.not_mem_nil b)
  | succ n ih =>
    intro l hl cps hdec b hb hb128
    cases l with
    | nil => exact absurd hb (List.not_mem_nil b)
    | cons x rest =>
      simp only [List.length_cons] at hl
      rw [utf8Decode.eq_def] at hdec
      by_cases hx : x < 128
      · simp only [if_pos hx] at hdec
        rcases Option.map_eq_some'.1 hdec with ⟨t, ht, rfl⟩
        rcases List.mem_cons.1 hb with rfl | hb
        · exact List.mem_cons_self b t
        · exact List.mem_cons_of_mem x (ih rest (by omega) t ht b hb hb128)
      · simp only [if_neg hx] at hdec
        cases rest with
        | nil => exact Option.noConfusion hdec
        | cons c rest2 =>
          simp only [List.length_cons] at hl
          by_cases h2 : twoByte x c
          · simp only [if_pos h2] at hdec
            rcases Option.map_eq_some'.1 hdec with ⟨t, ht, rfl⟩
            rcases List.mem_cons.1 hb with rfl | hb
            · omega
            rcases List.mem_cons.1 hb with rfl | hb
            · rcases h2 with ⟨_, hc1, _⟩
              omega
            exact List.mem_cons_of_mem _ (ih rest2 (by omega) t ht b hb hb128)
          · simp only [if_neg h2] at hdec
            cases rest2 with
            | nil => exact Option.noConfusion hdec
            | cons d rest3 =>
              simp only [List.length_cons] at hl
              by_cases h3 : threeByte x c d
              · simp only [if_pos h3] at hdec
                rcases Option.map_eq_some'.1 hdec with ⟨t, ht, rfl⟩
                have hc128 : 128 ≤ c := by
                  rcases h3 with ⟨h3c, _⟩
                  rcases h3c with ⟨_, hcc, _⟩ | ⟨_, _, hcc, _⟩ | ⟨_, hcc, _⟩ |
                    ⟨_, _, hcc, _⟩ <;> omega
                have hd128 : 128 ≤ d := by
                  rcases h3 with ⟨_, hdd, _⟩
                  omega
                rcases List.mem_cons.1 hb with rfl | hb
                · omega
                rcases List.mem_cons.1 hb with rfl | hb
                · omega
                rcases List.mem_cons.1 hb with rfl | hb
                · omega
                exact List.mem_cons_of_mem _ (ih rest3 (by omega) t ht b hb hb128)
              · simp only [if_neg h3] at hdec
                cases rest3 with
                | nil => exact Option.noConfusion hdec
                | cons e rest4 =>
                  simp only [List.length_cons] at hl
                  by_cases h4 : fourByte x c d e
                  · simp only [if_pos h4] at hdec
                    rcases Option.map_eq_some'.1 hdec with ⟨t, ht, rfl⟩
                    have hc128 : 128 ≤ c := by
                      rcases h4 with ⟨h4c, _⟩
                      rcases h4c with ⟨_, hcc, _⟩ | ⟨_, _, hcc, _⟩ |
                        ⟨_, hcc, _⟩ <;> omega
                    have hd128 : 128 ≤ d := by
                      rcases h4 with ⟨_, ⟨hdd, _⟩, _⟩
                      omega
                    have he128 : 128 ≤ e := by
                      rcases h4 with ⟨_, _, hee, _⟩
                      omega
                    rcases List.mem_cons.1 hb with rfl | hb
                    · omega
                    rcases List.mem_cons.1 hb with rfl | hb
                    · omega
                    rcases List.mem_cons.1 hb with rfl | hb
                    · omega
                    rcases List.mem_cons.1 hb with rfl | hb
                    · omega
                    exact List.mem_cons_of_mem _
                      (ih rest4 (by omega) t ht b hb hb128)
                  · simp only [if_neg h4] at hdec
                    exact Option.noConfusion hdec

theorem utf8Decode_mem {l cps : List Nat} (hdec : utf8Decode l = some cps)
    {b : Nat} (hb : b ∈ l) (hb128 : b < 128) : b ∈ cps :=
  utf8Decode_mem_aux l.length l (le_refl _) cps hdec b hb hb128

theorem utf8Decode_pair {x y : Nat} {cps : List Nat}
    (h : utf8Decode [x, y] = some cps) :
    (x < 128 ∧ y < 128 ∧ cps = [x, y]) ∨ (∃ cp, cps = [cp] ∧ 128 ≤ cp) := by
  rw [utf8Decode.eq_def] at h
  by_cases hx : x < 128
  · simp only [if_pos hx] at h
    by_cases hy : y < 128
    · left
      have hr : utf8Decode [y] = some [y] := utf8Decode_ascii [y] (by
        intro z hz
        rcases List.mem_cons.1 hz with rfl | hz
        · exact hy
        · exact absurd hz (List.not_mem_nil z))
      rw [hr] at h
      have := Option.some.inj h
      exact ⟨hx, hy, this.symm⟩
    · exfalso
      have hr : utf8Decode [y] = none := by
        rw [utf8Decode.eq_def]
        simp only [if_neg hy]
      rw [hr] at h
      exact Option.noConfusion h
  · simp only [if_neg hx] at h
    by_cases h2 : twoByte x y
    · simp only [if_pos h2] at h
      have hr : utf8Decode ([] : List Nat) = some [] := rfl
      rw [hr] at h
      have := Option.some.inj h
      refine Or.inr ⟨cp2 x y, this.symm, ?_⟩
      rcases h2 with ⟨⟨hx1, _⟩, hy1, _⟩
      unfold cp2
      omega
    · simp only [if_neg h2] at h
      exact Option.noConfusion h

theorem u32FromStr_two_shape {a b : Nat} {v : Nat}
    (h : u32FromStr [a, b] = some v) : (a = 43 ∨ digitB a) ∧ digitB b := by
  rw [u32FromStr] at h
  by_cases h43 : a = 43
  · rw [if_pos h43] at h
    by_cases hc : ([b] : List Nat) ≠ [] ∧ allDigits [b] ∧ digitsVal [b] ≤ 4294967295
    · exact ⟨Or.inl h43, hc.2.1 b (List.mem_cons_self b [])⟩
    · rw [if_neg hc] at h
      exact Option.noConfusion h
  · rw [if_neg h43] at h
    by_cases hc : allDigits [a, b] ∧ digitsVal [a, b] ≤ 4294967295
    · exact ⟨Or.inr (hc.1 a (List.mem_cons_self a [b])),
        hc.1 b (List.mem_cons_of_mem a (List.mem_cons_self b []))⟩
    · rw [if_neg hc] at h
      exact Option.noConfusion h

theorem u32FromStr_single_fail {cp : Nat} {v : Nat} (hcp : 128 ≤ cp)
    (h : u32FromStr [cp] = some v) : False := by
  rw [u32FromStr] at h
  rw [if_neg (by omega : ¬ cp = 43)] at h
  rw [if_neg (by
    rintro ⟨hall, _⟩
    have := hall cp (List.mem_cons_self cp [])
    rcases this with ⟨_, h2⟩
    omega)] at h
  exact Option.noConfusion h

theorem i32FromStr_two_shape {a b : Nat} {v : Int}
    (h : i32FromStr [a, b] = some v) : (a = 43 ∨ a = 45 ∨ digitB a) ∧ digitB b := by
  rw [i32FromStr] at h
  by_cases h43 : a = 43
  · rw [if_pos h43] at h
    by_cases hc : ([b] : List Nat) ≠ [] ∧ allDigits [b] ∧ digitsVal [b] ≤ 2147483647
    · exact ⟨Or.inl h43, hc.2.1 b (List.mem_cons_self b [])⟩
    · rw [if_neg hc] at h
      exact Option.noConfusion h
  · rw [if_neg h43] at h
    by_cases h45 : a = 45
    · rw [if_pos h45] at h
      by_cases hc : ([b] : List Nat) ≠ [] ∧ allDigits [b] ∧
          digitsVal [b] ≤ 2147483648
      · exact ⟨Or.inr (Or.inl h45), hc.2.1 b (List.mem_cons_self b [])⟩
      · rw [if_neg hc] at h
        exact Option.noConfusion h
    · rw [if_neg h45] at h
      by_cases hc : allDigits [a, b] ∧ digitsVal [a, b] ≤ 2147483647
      · exact ⟨Or.inr (Or.inr (hc.1 a (List.mem_cons_self a [b]))),
          hc.1 b (List.mem_cons_of_mem a (List.mem_cons_self b []))⟩
      · rw [if_neg hc] at h
        exact Option.noConfusion h

theorem i32FromStr_single_fail {cp : Nat} {v : Int} (hcp : 128 ≤ cp)
    (h : i32FromStr [cp] = some v) : False := by
  rw [i32FromStr] at h
  rw [if_neg (by omega : ¬ cp = 43), if_neg (by omega : ¬ cp = 45)] at h
  rw [if_neg (by
    rintro ⟨hall, _⟩
    have := hall cp (List.mem_cons_self cp [])
    rcases this with ⟨_, h2⟩
    omega)] at h
  exact Option.noConfusion h

theorem byteSlice_pair {data : List Nat} {i : Nat} (h13 : i + 2 ≤ data.length) :
    ∃ b0 b1, byteSlice data i (i + 2) = some [b0, b1] ∧
      data.get? i = some b0 ∧ data.get? (i + 1) = some b1 := by
  have hlen2 : ((data.take (i + 2)).drop i).length = 2 := by
    rw [List.length_drop, List.length_take]
    omega
  obtain ⟨b0, b1, hL⟩ : ∃ b0 b1, (data.take (i + 2)).drop i = [b0, b1] := by
    cases hL : (data.take (i + 2)).drop i with
    | nil =>
      rw [hL] at hlen2
      simp at hlen2
    | cons b0 t =>
      cases t with
      | nil =>
        rw [hL] at hlen2
        simp at hlen2
      | cons b1 t2 =>
        cases t2 with
        | nil => exact ⟨b0, b1, rfl⟩
        | cons b2 t3 =>
          rw [hL] at hlen2
          simp only [List.length_cons] at hlen2
          omega
  have h0 : ((data.take (i + 2)).drop i).get? 0 = some b0 := by
    rw [hL]
    rfl
  have h1 : ((data.take (i + 2)).drop i).get? 1 = some b1 := by
    rw [hL]
    rfl
  rw [List.get?_drop] at h0 h1
  rw [List.get?_take (by omega : i + 0 < i + 2)] at h0
  rw [List.get?_take (by omega : i + 1 < i + 2)] at h1
  refine ⟨b0, b1, ?_, ?_, h1⟩
  · rw [byteSlice, if_pos ⟨by omega, h13⟩, hL]
  · exact h0

theorem utcField_ok_shape {data : List Nat} {i m : Nat} (h13 : i + 2 ≤ data.length)
    (h : utcField data i = DR.ok m) :
    ∀ b, (data.get? i = some b → (digitB b ∨ b = 43)) ∧
      (data.get? (i + 1) = some b → digitB b) := by
  obtain ⟨b0, b1, hsl, hg0, hg1⟩ := byteSlice_pair h13
  simp only [utcField, hsl] at h
  cases hu : utf8Decode [b0, b1] with
  | none =>
    simp only [hu] at h
    exact DR.noConfusion h
  | some cps =>
    simp only [hu] at h
    cases hv : u32FromStr cps with
    | none =>
      simp only [hv] at h
      exact DR.noConfusion h
    | some m2 =>
      rcases utf8Decode_pair hu with ⟨_, _, rfl⟩ | ⟨cp, rfl, hcp⟩
      · have hshape := u32FromStr_two_shape hv
        intro b
        constructor
        · intro hgb
          have hb : b0 = b := Option.some.inj (hg0.symm.trans hgb)
          subst hb
          rcases hshape.1 with hx | hx
          · exact Or.inr hx
          · exact Or.inl hx
        · intro hgb
          have hb : b1 = b := Option.some.inj (hg1.symm.trans hgb)
          subst hb
          exact hshape.2
      · exact absurd hv (by
          intro hv2
          exact u32FromStr_single_fail hcp hv2)

theorem utcRawYear_ok_shape {data : List Nat} {m : Int} (h13 : 2 ≤ data.length)
    (h : utcRawYear data = DR.ok m) :
    ∀ b, (data.get? 0 = some b → (digitB b ∨ b = 43 ∨ b = 45)) ∧
      (data.get? 1 = some b → digitB b) := by
  obtain ⟨b0, b1, hsl, hg0, hg1⟩ := @byteSlice_pair data 0 (by omega)
  have hsl2 : byteSlice data 0 2 = some [b0, b1] := hsl
  have hg0b : data.get? 0 = some b0 := hg0
  have hg1b : data.get? 1 = some b1 := hg1
  simp only [utcRawYear, hsl2] at h
  cases hu : utf8Decode [b0, b1] with
  | none =>
    simp only [hu] at h
    exact DR.noConfusion h
  | some cps =>
    simp only [hu] at h
    cases hv : i32FromStr cps with
    | none =>
      simp only [hv] at h
      exact DR.noConfusion h
    | some m2 =>
      rcases utf8Decode_pair hu with ⟨_, _, rfl⟩ | ⟨cp, rfl, hcp⟩
      · have hshape := i32FromStr_two_shape hv
        intro b
        constructor
        · intro hgb
          have hb : b0 = b := Option.some.inj (hg0b.symm.trans hgb)
          subst hb
          rcases hshape.1 with hx | hx | hx
          · exact Or.inr (Or.inl hx)
          · exact Or.inr (Or.inr hx)
          · exact Or.inl hx
        · intro hgb
          have hb : b1 = b := Option.some.inj (hg1b.symm.trans hgb)
          subst hb
          exact hshape.2
      · exact absurd hv (by
          intro hv2
          exact i32FromStr_single_fail hcp hv2)

theorem utc_ok_shape {data : List Nat} {v : DT}
    (h : UtcTime.from_primitive data = DR.ok v) :
    ∀ i b, i < 12 → data.get? i = some b →
      (digitB b ∨ (i % 2 = 0 ∧ (b = 43 ∨ b = 45))) := by
  intro i b hi hib
  rw [UtcTime.from_primitive] at h
  by_cases hl : data.length ≠ 13
  · rw [if_pos hl] at h
    exact DR.noConfusion h
  · rw [if_neg hl] at h
    have hlen : data.length = 13 := by omega
    obtain ⟨yy, hy, h⟩ := DR.bind_eq_ok h
    obtain ⟨mo, hmo, h⟩ := DR.bind_eq_ok h
    obtain ⟨dd, hdd, h⟩ := DR.bind_eq_ok h
    obtain ⟨hh, hhh, h⟩ := DR.bind_eq_ok h
    obtain ⟨mi, hmi, h⟩ := DR.bind_eq_ok h
    obtain ⟨ss, hss, h⟩ := DR.bind_eq_ok h
    have sy := utcRawYear_ok_shape (by omega) hy
    have s2 := utcField_ok_shape (by omega : 2 + 2 ≤ data.length) hmo
    have s4 := utcField_ok_shape (by omega : 4 + 2 ≤ data.length) hdd
    have s6 := utcField_ok_shape (by omega : 6 + 2 ≤ data.length) hhh
    have s8 := utcField_ok_shape (by omega : 8 + 2 ≤ data.length) hmi
    have s10 := utcField_ok_shape (by omega : 10 + 2 ≤ data.length) hss
    interval_cases i
    · rcases (sy b).1 hib with hx | hx | hx
      · exact Or.inl hx
      · exact Or.inr ⟨rfl, Or.inl hx⟩
      · exact Or.inr ⟨rfl, Or.inr hx⟩
    · exact Or.inl ((sy b).2 hib)
    · rcases (s2 b).1 hib with hx | hx
      · exact Or.inl hx
      · exact Or.inr ⟨rfl, Or.inl hx⟩
    · exact Or.inl ((s2 b).2 hib)
    · rcases (s4 b).1 hib with hx | hx
      · exact Or.inl hx
      · exact Or.inr ⟨rfl, Or.inl hx⟩
    · exact Or.inl ((s4 b).2 hib)
    · rcases (s6 b).1 hib with hx | hx
      · exact Or.inl hx
      · exact Or.inr ⟨rfl, Or.inl hx⟩
    · exact Or.inl ((s6 b).2 hib)
    · rcases (s8 b).1 hib with hx | hx
      · exact Or.inl hx
      · exact Or.inr ⟨rfl, Or.inl hx⟩
    · exact Or.inl ((s8 b).2 hib)
    · rcases (s10 b).1 hib with hx | hx
      · exact Or.inl hx
      · exact Or.inr ⟨rfl, Or.inl hx⟩
    · exact Or.inl ((s10 b).2 hib)

theorem gt_ok_lenient {data : List Nat} {v : DT}
    (h : GeneralizedTime.from_primitive data = DR.ok v) :
    ∀ i b, i + 1 < data.length → data.get? i = some b → b < 128 →
      lenientCp b := by
  intro i b hi hib hb128
  rw [GeneralizedTime.from_primitive] at h
  by_cases hlen : data.length < 15
  · rw [if_pos hlen] at h
    exact DR.noConfusion h
  · rw [if_neg hlen] at h
    cases hz : data.get? (data.length - 1) with
    | none =>
      simp only [hz] at h
      exact DR.noConfusion h
    | some z =>
      simp only [hz] at h
      by_cases hzz : z ≠ 90
      · rw [if_pos hzz] at h
        exact DR.noConfusion h
      · rw [if_neg hzz] at h
        have hslice : byteSlice data 0 (data.length - 1) =
            some ((data.take (data.length - 1)).drop 0) := by
          rw [byteSlice, if_pos ⟨by omega, by omega⟩]
        simp only [hslice] at h
        cases hu : utf8Decode ((data.take (data.length - 1)).drop 0) with
        | none =>
          simp only [hu] at h
          exact DR.noConfusion h
        | some ds =>
          simp only [hu] at h
          have hbmem : b ∈ (data.take (data.length - 1)).drop 0 := by
            rw [List.drop_zero]
            have hg : (data.take (data.length - 1)).get? i = some b := by
              rw [List.get?_take (by omega : i < data.length - 1)]
              exact hib
            exact List.get?_mem hg
          have hcp : b ∈ ds := utf8Decode_mem hu hbmem hb128
          by_cases h15 : data.length = 15
          · rw [if_pos h15] at h
            cases hp : parseNoFrac ds with
            | none =>
              simp only [hp] at h
              exact DR.noConfusion h
            | some dt =>
              exact parseNoFrac_lenient hp b hcp
          · rw [if_neg h15] at h
            cases hp : parseFrac (padTo24 ds) with
            | none =>
              simp only [hp] at h
              exact DR.noConfusion h
            | some dt =>
              exact parseFrac_lenient hp b (by
                rw [padTo24]
                exact List.mem_append_left _ hcp)

/-- Claim C4, amended: a byte at a must-hold-digit position that is not an
ASCII digit forces Malformed in both decoders unless it is one of the
bytes the integer/datetime parsers tolerate — UtcTime accepts a `+` (any
field) or `-` (year field only) as the leading byte of a two-byte field,
and GeneralizedTime's chrono parser can additionally consume whitespace,
signs and the `.`; every other ASCII byte at a non-final position makes
GeneralizedTime decode fail, and every byte that is neither a digit nor
a sign makes UtcTime decode fail. -/
theorem claim4_nondigit_bytes :
    (∀ data v, UtcTime.from_primitive data = DR.ok v →
      ∀ i b, i < 12 → data.get? i = some b →
        (digitB b ∨ (i % 2 = 0 ∧ (b = 43 ∨ b = 45)))) ∧
    (∀ data i b, i < 12 → data.get? i = some b → ¬ digitB b → b ≠ 43 → b ≠ 45 →
      UtcTime.from_primitive data = DR.malformed) ∧
    (∀ data i b, i + 1 < data.length → data.get? i = some b → b < 128 →
      ¬ lenientCp b → GeneralizedTime.from_primitive data = DR.malformed) := by
  refine ⟨fun data v h => utc_ok_shape h, ?_, ?_⟩
  · intro data i b hi hib hnd h43 h45
    cases hr : UtcTime.from_primitive data with
    | malformed => rfl
    | oob => exact absurd hr (utc_ne_oob data)
    | ok v =>
      exfalso
      rcases utc_ok_shape hr i b hi hib with hx | ⟨_, hx | hx⟩
      · exact hnd hx
      · exact h43 hx
      · exact h45 hx
  · intro data i b hi hib hb128 hlcp
    cases hr : GeneralizedTime.from_primitive data with
    | malformed => rfl
    | oob => exact absurd hr (gt_ne_oob data)
    | ok v =>
      exact absurd (gt_ok_lenient hr i b hi hib hb128) hlcp

/-- Counterexample for C4 as stated: the UtcTime content `+50101000000Z`
has a non-digit `+` in a must-digit position yet decodes successfully
(so UtcTime does not accept only `^[0-9]{12}Z$`), and the
GeneralizedTime content beginning with a space decodes successfully as
well. -/
theorem claim4_counterexample :
    UtcTime.from_primitive (bytes ("+50101000000Z")) =
      DR.ok ⟨2005, 1, 1, 0, 0, 0, 0⟩ ∧
    GeneralizedTime.from_primitive (bytes (" 2023061514300Z")) =
      DR.ok ⟨2023, 6, 15, 14, 30, 0, 0⟩ := by decide

/-- Witness for the amended C4: a letter byte (`x` = 120) in a must-digit
position makes both decoders fail, and the successful `230615143000Z`
decode has the asserted byte shape at position 0. -/
theorem claim4_nondigit_bytes_witness :
    UtcTime.from_primitive [50, 51, 48, 54, 49, 53, 120, 52, 51, 48, 48, 48, 90] =
      DR.malformed ∧
    GeneralizedTime.from_primitive
        [50, 48, 50, 51, 48, 54, 49, 53, 120, 52, 51, 48, 48, 48, 90] =
      DR.malformed ∧
    (digitB 50 ∨ (0 % 2 = 0 ∧ ((50 : Nat) = 43 ∨ (50 : Nat) = 45))) :=
  ⟨claim4_nondigit_bytes.2.1 [50, 51, 48, 54, 49, 53, 120, 52, 51, 48, 48, 48, 90]
    6 120 (by decide) (by decide) (by decide) (by decide) (by decide),
  claim4_nondigit_bytes.2.2
    [50, 48, 50, 51, 48, 54, 49, 53, 120, 52, 51, 48, 48, 48, 90]
    8 120 (by decide) (by decide) (by decide) (by decide),
  claim4_nondigit_bytes.1 [50, 51, 48, 54, 49, 53, 49, 52, 51, 48, 48, 48, 90]
    ⟨2023, 6, 15, 14, 30, 0, 0⟩ (by decide) 0 50 (by decide) (by decide)⟩
